import Mathlib

/-!
# Truncated univariate power series over Flint (`ginac/useries.cpp`)

A shallow embedding of `useries.cpp`: the eligibility heuristic
(`unhandled_elements_in`, `useries_can_handle`), the recursive composition
(`symbol::useries`, `numeric::useries`, `add::useries`, `mul::useries`,
`power::useries`, `function::useries`) and the result assembler (`useries`).

* A `fmpq_poly_t` is its coefficient list, lowest degree first, without
  trailing zeros (Flint keeps polynomials in this canonical form).
* C++ exceptions, the process abort raised by Flint and a read of freed
  memory are the errors of `Err`; every run also records, in order, the calls it made to those Flint
  primitives that have a documented domain (`flint_call`), so that "the
  primitive is not invoked" is a statement about the embedding.
* The closed-form series primitives of Flint are a parameter (`Backend`);
  `flint` is a reference instance used to evaluate concrete inputs.
* The two polynomials that `useries.cpp` writes as strings go through a
  model of the parser `fmpq_poly_set_str`, and the rational `cc` of the
  square-root branch through a model of Flint's read-only integers, which
  borrow the limbs of a GMP integer above `COEFF_MAX`.
* The classes `numeric`, `symbol`, `basic` and the libraries Flint and GMP
  are not part of `useries.cpp`; what the file uses of them is modelled from
  the specification, and marked so.
* `int order` and the `int` values of exponents are taken in the range of
  `int`, as natural numbers and integers.
-/

namespace GiNaC

/-! ## Rational polynomials -/

/-- Modelled from the spec: a `fmpq_poly_t` of Flint, as the coefficient list
of a polynomial over the rationals, lowest degree first. -/
abbrev fmpq_poly_t := List ℚ

/-- Modelled from the spec: the canonical form of a `fmpq_poly_t`, trailing
zero coefficients dropped. -/
def normalise : fmpq_poly_t → fmpq_poly_t
  | [] => []
  | a :: p => if normalise p = [] ∧ a = 0 then [] else a :: normalise p

/-- Modelled from the spec: coefficient extraction by degree
(`fmpq_poly_get_coeff_fmpq`); zero beyond the length. -/
def fmpq_poly_get_coeff (p : fmpq_poly_t) (n : Nat) : ℚ := p.getD n 0

/-- Modelled from the spec: the constant polynomial `c` (`fmpq_poly_set_ui`,
`fmpq_poly_set_mpz`, `fmpq_poly_set_mpq`). -/
def fmpq_poly_set_fmpq (c : ℚ) : fmpq_poly_t := normalise [c]

/-- Coefficient-wise sum of two coefficient lists, the shorter one padded with zeros. -/
def add_coeffs : fmpq_poly_t → fmpq_poly_t → fmpq_poly_t
  | [], q => q
  | p, [] => p
  | a :: p, b :: q => (a + b) :: add_coeffs p q

/-- Modelled from the spec: elementwise addition (`fmpq_poly_add`). -/
def fmpq_poly_add (p q : fmpq_poly_t) : fmpq_poly_t := normalise (add_coeffs p q)

/-- Modelled from the spec: scalar multiplication by an exact rational
(`fmpq_poly_scalar_mul_mpz`, `_mpq`, `_fmpq`). -/
def fmpq_poly_scalar_mul (p : fmpq_poly_t) (c : ℚ) : fmpq_poly_t :=
  normalise (p.map (fun a => a * c))

/-- Full product of two coefficient lists (convolution). -/
def mul_coeffs : fmpq_poly_t → fmpq_poly_t → fmpq_poly_t
  | [], _ => []
  | a :: p, q => add_coeffs (q.map (fun b => a * b)) (0 :: mul_coeffs p q)

/-- Modelled from the spec: the product of two polynomials (`fmpq_poly_mul`). -/
def fmpq_poly_mul (p q : fmpq_poly_t) : fmpq_poly_t := normalise (mul_coeffs p q)

/-- Modelled from the spec: truncated multiplication, the convolution cut to
length `n` (`fmpq_poly_mullow`). -/
def fmpq_poly_mullow (p q : fmpq_poly_t) (n : Nat) : fmpq_poly_t :=
  normalise ((mul_coeffs p q).take n)

/-- Modelled from the spec: the integer power `p ^ e` (`fmpq_poly_pow`, which
takes no length and does not truncate); `p ^ 0 = 1`. -/
def fmpq_poly_pow (p : fmpq_poly_t) : Nat → fmpq_poly_t
  | 0 => [1]
  | e + 1 => fmpq_poly_mul (fmpq_poly_pow p e) p

/-! ## Polynomials from strings -/

/-- The number written by a list of decimal digits, after `acc`; `none` when
a character is no digit. -/
def digits_value : List Char → Nat → Option Nat
  | [], acc => some acc
  | c :: cs, acc => if c.isDigit then digits_value cs (acc * 10 + (c.toNat - 48)) else none

/-- Modelled from the spec: the parser `mpz_set_str(z, tok, 10)` of GMP on a
token without blanks: an optional minus sign and at least one digit; `none`
is its error return. -/
def mpz_set_str (tok : List Char) : Option ℤ :=
  match tok with
  | [] => none
  | '-' :: ds => if ds = [] then none else (digits_value ds 0).map (fun n => -(n : ℤ))
  | ds => (digits_value ds 0).map (fun n => (n : ℤ))

/-- Modelled from the spec: the parser `mpq_set_str(q, tok, 10)` of GMP on a
token without blanks: an integer, or two integers around a slash; `none` is
its error return, in particular for the empty token. -/
def mpq_set_str (tok : List Char) : Option ℚ :=
  match mpz_set_str (tok.takeWhile (fun c => c != '/')) with
  | none => none
  | some p =>
      match tok.dropWhile (fun c => c != '/') with
      | [] => some (p : ℚ)
      | _ :: den =>
          match mpz_set_str den with
          | none => none
          | some q => some ((p : ℚ) / (q : ℚ))

/-- Modelled from the spec: the function `atol` of C on a string that starts
with an optional minus sign and digits. -/
def atol (str : List Char) : ℤ :=
  match str with
  | '-' :: ds => -((digits_value (ds.takeWhile Char.isDigit) 0).getD 0 : ℤ)
  | ds => ((digits_value (ds.takeWhile Char.isDigit) 0).getD 0 : ℤ)

/-- Modelled from the spec: the loop of Flint that reads `n` coefficients:
each time it steps over one character, then reads a token up to the next
blank or the end of the string. -/
def set_str_coeffs : Nat → List Char → Option (List ℚ)
  | 0, _ => some []
  | n + 1, str =>
      match mpq_set_str (str.tail.takeWhile (fun c => c != ' ')) with
      | none => none
      | some q =>
          (set_str_coeffs n (str.tail.dropWhile (fun c => c != ' '))).map (fun l => q :: l)

/-- Modelled from the spec: the parser `fmpq_poly_set_str(poly, str)` of
Flint on a freshly initialised polynomial. The format is the length, two
blanks, and the coefficients separated by single blanks: the parser steps
over the first blank after the length and then over one more character
before every coefficient. When a token is no rational the polynomial is left
zero and an error code is returned, which `useries.cpp` does not look at. -/
def fmpq_poly_set_str (str : String) : fmpq_poly_t :=
  if atol str.data ≤ 0 then []
  else
    match set_str_coeffs (atol str.data).toNat
        ((str.data.dropWhile (fun c => c != ' ')).tail) with
    | some coeffs => normalise coeffs
    | none => []

/-! ## Integers borrowed by Flint -/

/-- Modelled from the spec: the largest absolute value that a Flint integer
holds in place (`COEFF_MAX` for 64-bit limbs); a larger one is held through
a pointer to the limbs of a GMP integer. -/
def COEFF_MAX : ℤ := 2 ^ 62 - 1

/-- Modelled from the spec: whether `fmpz_init_set_readonly(f, z)` copies the
value of `z` into `f`; otherwise `f` borrows the limbs of `z`. -/
def fmpz_readonly_copies (z : ℤ) : Bool := decide ((z.natAbs : ℤ) ≤ COEFF_MAX)

/-- Modelled from the spec: the value of the `fmpq_t` set by
`fmpq_init_set_mpz_frac_readonly(cc, cnum, cden)` once `mpz_clear(cnum)` and
`mpz_clear(cden)` have run: the quotient when both integers were copied,
`none` when `cc` is left pointing to freed limbs. -/
def fmpq_readonly_after_clear (cnum cden : ℤ) : Option ℚ :=
  if fmpz_readonly_copies cnum && fmpz_readonly_copies cden then
    some ((cnum : ℚ) / (cden : ℚ))
  else none

/-! ## Outcomes and the record of backend calls -/

/-- How a composition can fail. -/
inductive Err where
  /-- The exception `flint_error`: the fast path is infeasible, the caller falls back. -/
  | flint_error
  /-- A `std::runtime_error`: an internal-consistency fault. -/
  | runtime_error
  /-- Flint was called outside the domain of a primitive and aborted the process (SIGABRT). -/
  | flint_abort
  /-- The program read memory it had freed before: undefined behaviour. -/
  | use_after_free
  deriving DecidableEq

/-- The Flint primitives that are defined only for some constant terms. -/
inductive Prim where
  | exp_series | log_series | sin_series | cos_series | tan_series | sinh_series
  | cosh_series | tanh_series | asin_series | asinh_series | atan_series | atanh_series
  | sqrt_series | inv_series
  deriving DecidableEq

/-- Modelled from the spec: the documented domain of a series primitive of
Flint, a condition on the constant term of its argument: `1` for the
logarithm and the square root, nonzero for the inversion, `0` for all the
others. -/
def Prim.in_domain : Prim → ℚ → Bool
  | .log_series, c => decide (c = 1)
  | .sqrt_series, c => decide (c = 1)
  | .inv_series, c => decide (c ≠ 0)
  | _, c => decide (c = 0)

/-- One call of a Flint primitive that has a domain, with its arguments. -/
inductive flint_call where
  | series (f : Prim) (arg : fmpq_poly_t) (n : Nat)
  | scalar_div_fmpq (p : fmpq_poly_t) (c : ℚ)
  deriving DecidableEq

/-- A run of a piece of the program: the backend calls it made, in order,
and its outcome. -/
structure Run (α : Type) where
  calls : List flint_call
  out : Except Err α

/-- A run that returns `a` and calls nothing. -/
def Run.ret {α : Type} (a : α) : Run α := ⟨[], .ok a⟩

/-- A run that throws `e`. -/
def Run.throw {α : Type} (e : Err) : Run α := ⟨[], .error e⟩

/-- Sequencing: the second part runs only when the first returned. -/
def Run.andThen {α β : Type} (r : Run α) (f : α → Run β) : Run β :=
  match r.out with
  | .error e => ⟨r.calls, .error e⟩
  | .ok a => ⟨r.calls ++ (f a).calls, (f a).out⟩

instance : Monad Run where
  pure := Run.ret
  bind := Run.andThen

/-- The closed-form series primitives of Flint: `bk f p n` is the result of
the primitive `f` on `p` at length `n`, for `p` in the domain of `f`. -/
abbrev Backend := Prim → fmpq_poly_t → Nat → fmpq_poly_t

/-- Modelled from the spec: a call `fmpq_poly_<f>_series(res, p, n)` of Flint,
recorded, and fatal (Flint raises SIGABRT) outside the domain. -/
def flint_series (bk : Backend) (f : Prim) (p : fmpq_poly_t) (n : Nat) : Run fmpq_poly_t :=
  ⟨[.series f p n],
   if f.in_domain (fmpq_poly_get_coeff p 0) then .ok (bk f p n) else .error .flint_abort⟩

/-- Modelled from the spec: scalar division by a nonzero exact rational. -/
def fmpq_poly_scalar_div (p : fmpq_poly_t) (c : ℚ) : fmpq_poly_t :=
  normalise (p.map (fun a => a / c))

/-- Modelled from the spec: a call `fmpq_poly_scalar_div_fmpq(res, p, c)` of
Flint, recorded, and fatal (division by zero) for `c = 0`. -/
def fmpq_poly_scalar_div_fmpq (p : fmpq_poly_t) (c : ℚ) : Run fmpq_poly_t :=
  ⟨[.scalar_div_fmpq p c],
   if c = 0 then .error .flint_abort else .ok (fmpq_poly_scalar_div p c)⟩

/-! ## Expressions -/

/-- Modelled from the spec: a symbol (class `symbol`); two symbols are equal
(`is_equal`) when their serial numbers are. -/
structure symbol where
  serial : Nat
  deriving DecidableEq

/-- Modelled from the spec: a numeric value (class `numeric`): an exact
integer, an exact rational, or an inexact value (floating point or foreign,
here with its value `d`). -/
inductive numeric where
  | mpz (z : ℤ)
  | mpq (q : ℚ)
  | inexact (d : ℚ)
  deriving DecidableEq

/-- Modelled from the spec: whether the numeric is an exact integer (`numeric::is_mpz`). -/
def numeric.is_mpz : numeric → Bool
  | .mpz _ => true
  | _ => false

/-- Modelled from the spec: whether the numeric is an exact rational (`numeric::is_mpq`). -/
def numeric.is_mpq : numeric → Bool
  | .mpq _ => true
  | _ => false

/-- Modelled from the spec: the value of a numeric. -/
def numeric.value : numeric → ℚ
  | .mpz z => z
  | .mpq q => q
  | .inexact d => d

/-- Modelled from the spec: whether the numeric is zero (`numeric::is_zero`). -/
def numeric.is_zero (n : numeric) : Bool := decide (n.value = 0)

/-- Modelled from the spec: whether the numeric equals one (`is_equal(*_num1_p)`). -/
def numeric.is_one (n : numeric) : Bool := decide (n.value = 1)

/-- Modelled from the spec: numerator of the value (`numeric::numer`). -/
def numeric.numer (n : numeric) : ℤ := n.value.num

/-- Modelled from the spec: denominator of the value (`numeric::denom`), positive. -/
def numeric.denom (n : numeric) : ℤ := n.value.den

/-- Modelled from the spec: conversion to a machine integer
(`numeric::to_int`), taken on the range of `int`, where it is the value
itself (truncated when it is no integer). -/
def numeric.to_int (n : numeric) : ℤ := Int.tdiv n.value.num n.value.den

/-- Modelled from the spec: the accessor `numeric::as_mpq`, the rational held
by the numeric; a numeric that holds no rational is a fault
(`std::runtime_error`). -/
def numeric.as_mpq : numeric → Run ℚ
  | .mpq q => pure q
  | _ => Run.throw .runtime_error

/-- Serial number of a function: the twelve functions registered in
`funcmap`, or any other function. -/
inductive Serial where
  | exp_SERIAL | log_SERIAL | sin_SERIAL | cos_SERIAL | tan_SERIAL | sinh_SERIAL
  | cosh_SERIAL | tanh_SERIAL | asin_SERIAL | asinh_SERIAL | atan_SERIAL | atanh_SERIAL
  | unlisted (serial : Nat)
  deriving DecidableEq

/-- An expression (`ex`): the node kinds told apart by `is_exactly_a` and
`is_a<expairseq>`. The operands of a sum or product are its terms or factors
(`recombine_pair_to_ex`), its overall coefficient is a numeric; the listed
functions have one argument. -/
inductive ex where
  | constant (serial : Nat)
  | numeric (n : numeric)
  | symbol (s : symbol)
  | function (serial : Serial) (arg : ex)
  | power (basis exponent : ex)
  | add (seq : List ex) (overall_coeff : numeric)
  | mul (seq : List ex) (overall_coeff : numeric)
  | other (tinfo : Nat)

/-- Whether the expression is a numeric (`is_exactly_a<numeric>`), and which. -/
def ex.to_numeric : ex → Option GiNaC.numeric
  | .numeric n => some n
  | _ => none

/-! ## Preconditions and the function table -/

/-- Throws `flint_error` unless the constant term is zero. -/
def check_poly_ccoeff_zero (fp : fmpq_poly_t) : Run Unit :=
  if ¬ fmpq_poly_get_coeff fp 0 = 0 then Run.throw .flint_error else pure ()

/-- Throws `flint_error` unless the constant term is one. -/
def check_poly_ccoeff_one (fp : fmpq_poly_t) : Run Unit :=
  if ¬ fmpq_poly_get_coeff fp 0 = 1 then Run.throw .flint_error else pure ()

def exp_useries (bk : Backend) (arg : fmpq_poly_t) (order : Nat) : Run fmpq_poly_t := do
  check_poly_ccoeff_zero arg
  flint_series bk .exp_series arg order

def log_useries (bk : Backend) (arg : fmpq_poly_t) (order : Nat) : Run fmpq_poly_t := do
  check_poly_ccoeff_one arg
  flint_series bk .log_series arg order

def sin_useries (bk : Backend) (arg : fmpq_poly_t) (order : Nat) : Run fmpq_poly_t := do
  check_poly_ccoeff_zero arg
  flint_series bk .sin_series arg order

def cos_useries (bk : Backend) (arg : fmpq_poly_t) (order : Nat) : Run fmpq_poly_t := do
  check_poly_ccoeff_zero arg
  flint_series bk .cos_series arg order

def tan_useries (bk : Backend) (arg : fmpq_poly_t) (order : Nat) : Run fmpq_poly_t := do
  check_poly_ccoeff_zero arg
  flint_series bk .tan_series arg order

def sinh_useries (bk : Backend) (arg : fmpq_poly_t) (order : Nat) : Run fmpq_poly_t := do
  check_poly_ccoeff_zero arg
  flint_series bk .sinh_series arg order

def cosh_useries (bk : Backend) (arg : fmpq_poly_t) (order : Nat) : Run fmpq_poly_t := do
  check_poly_ccoeff_zero arg
  flint_series bk .cosh_series arg order

def tanh_useries (bk : Backend) (arg : fmpq_poly_t) (order : Nat) : Run fmpq_poly_t := do
  check_poly_ccoeff_zero arg
  flint_series bk .tanh_series arg order

def asin_useries (bk : Backend) (arg : fmpq_poly_t) (order : Nat) : Run fmpq_poly_t := do
  check_poly_ccoeff_zero arg
  flint_series bk .asin_series arg order

def asinh_useries (bk : Backend) (arg : fmpq_poly_t) (order : Nat) : Run fmpq_poly_t := do
  check_poly_ccoeff_zero arg
  flint_series bk .asinh_series arg order

def atan_useries (bk : Backend) (arg : fmpq_poly_t) (order : Nat) : Run fmpq_poly_t := do
  check_poly_ccoeff_zero arg
  flint_series bk .atan_series arg order

def atanh_useries (bk : Backend) (arg : fmpq_poly_t) (order : Nat) : Run fmpq_poly_t := do
  check_poly_ccoeff_zero arg
  flint_series bk .atanh_series arg order

/-- The type `usfun_t` of the entries of `funcmap`. -/
abbrev usfun_t := Backend → fmpq_poly_t → Nat → Run fmpq_poly_t

/-- The table `funcmap`: `funcmap.find(serial)`, `none` for `funcmap.end()`. -/
def funcmap : Serial → Option usfun_t
  | .exp_SERIAL => some exp_useries
  | .log_SERIAL => some log_useries
  | .sin_SERIAL => some sin_useries
  | .cos_SERIAL => some cos_useries
  | .tan_SERIAL => some tan_useries
  | .sinh_SERIAL => some sinh_useries
  | .cosh_SERIAL => some cosh_useries
  | .tanh_SERIAL => some tanh_useries
  | .asin_SERIAL => some asin_useries
  | .asinh_SERIAL => some asinh_useries
  | .atan_SERIAL => some atan_useries
  | .atanh_SERIAL => some atanh_useries
  | .unlisted _ => none

/-! ## The eligibility heuristic -/

/-- The two file-level variables `first_symbol` and `symb`. -/
structure classifier_state where
  first_symbol : Bool
  symb : symbol
  deriving DecidableEq

/-- The state at program start: `first_symbol = true`, `symb` a fresh symbol. -/
def classifier_state.initial : classifier_state := ⟨true, ⟨0⟩⟩

mutual
/-- The function `unhandled_elements_in`, with the file-level variables
passed in and returned. `or` and the loops stop at the first `true`. -/
def unhandled_elements_in : ex → classifier_state → Bool × classifier_state
  | .constant _, st => (true, st)
  | .numeric n, st => (!(n.is_mpz || n.is_mpq), st)
  | .symbol s, st =>
      if !st.first_symbol then (!(decide (s = st.symb)), st)
      else (false, ⟨false, s⟩)
  | .function serial arg, st =>
      if (funcmap serial).isNone then (true, st)
      else
        match unhandled_elements_in arg st with
        | (true, st1) => (true, st1)
        | (false, st1) => (false, st1)
  | .power basis exponent, st =>
      match unhandled_elements_in basis st with
      | (true, st1) => (true, st1)
      | (false, st1) => unhandled_elements_in exponent st1
  | .add seq overall_coeff, st =>
      match unhandled_elements_in_seq seq st with
      | (true, st1) => (true, st1)
      | (false, st1) => (!(overall_coeff.is_mpz || overall_coeff.is_mpq), st1)
  | .mul seq overall_coeff, st =>
      match unhandled_elements_in_seq seq st with
      | (true, st1) => (true, st1)
      | (false, st1) => (!(overall_coeff.is_mpz || overall_coeff.is_mpq), st1)
  | .other _, st => (true, st)
/-- The loop over the operands `op(0)`, ..., `op(nops()-1)` of a sum or product. -/
def unhandled_elements_in_seq : List ex → classifier_state → Bool × classifier_state
  | [], st => (false, st)
  | t :: ts, st =>
      match unhandled_elements_in t st with
      | (true, st1) => (true, st1)
      | (false, st1) => unhandled_elements_in_seq ts st1
end

/-- The function `useries_can_handle`, with the state it leaves behind. -/
def useries_can_handle (the_ex : ex) (st : classifier_state) : Bool × classifier_state :=
  (!(unhandled_elements_in the_ex st).1, (unhandled_elements_in the_ex st).2)

/-! ## The composition -/

/-- Modelled from the spec: the test `mpz_perfect_square_p` of GMP, whether
`n` is the square of an integer (so `0` and `1` are, negative numbers are
not). -/
def mpz_perfect_square_p (n : ℤ) : Bool := decide (Int.sqrt n * Int.sqrt n = n)

/-- Modelled from the spec: the integer square root `mpz_sqrt` of GMP. -/
def mpz_sqrt (n : ℤ) : ℤ := Int.sqrt n

/-- Modelled from the spec: the method `basic::useries` of the classes that
do not override it; a node of any other kind reaching the composition is an
internal-consistency fault (`std::runtime_error`). -/
def basic_useries : Run fmpq_poly_t := Run.throw .runtime_error

/-- The method `symbol::useries`: `fmpq_poly_set_str(fp, "2  0 1")`. -/
def symbol_useries (_order : Nat) : Run fmpq_poly_t := pure (fmpq_poly_set_str "2  0 1")

/-- The method `numeric::useries`. -/
def numeric_useries (n : numeric) (_order : Nat) : Run fmpq_poly_t :=
  match n with
  | .mpz z => pure (fmpq_poly_set_fmpq z)
  | n => do
      let q ← n.as_mpq
      pure (fmpq_poly_set_fmpq q)

/-- The loop of `add::useries` over the runs of `t.useries(fp1, order)`. -/
def add_useries_loop : List (Run fmpq_poly_t) → fmpq_poly_t → Run fmpq_poly_t
  | [], fp => pure fp
  | t :: ts, fp => do
      let fp1 ← t
      add_useries_loop ts (fmpq_poly_add fp fp1)

/-- The method `add::useries`; `seq` holds the runs of the terms. The overall
coefficient is a numeric, so `non-numeric oc encountered` cannot be thrown. -/
def add_useries (seq : List (Run fmpq_poly_t)) (overall_coeff : numeric) (_order : Nat) :
    Run fmpq_poly_t := do
  let fp ← add_useries_loop seq (fmpq_poly_set_fmpq 0)
  let oc := overall_coeff
  if oc.is_zero then pure fp
  else
    match oc with
    | .mpz z => pure (fmpq_poly_add fp (fmpq_poly_set_fmpq z))
    | oc => do
        let q ← oc.as_mpq
        pure (fmpq_poly_add fp (fmpq_poly_set_fmpq q))

/-- The loop of `mul::useries` over the runs of `t.useries(fp1, order)`. -/
def mul_useries_loop (order : Nat) : List (Run fmpq_poly_t) → fmpq_poly_t → Run fmpq_poly_t
  | [], fp => pure fp
  | t :: ts, fp => do
      let fp1 ← t
      mul_useries_loop order ts (fmpq_poly_mullow fp fp1 (order + 2))

/-- The method `mul::useries`; `seq` holds the runs of the factors. -/
def mul_useries (seq : List (Run fmpq_poly_t)) (overall_coeff : numeric) (order : Nat) :
    Run fmpq_poly_t := do
  let fp ← mul_useries_loop order seq (fmpq_poly_set_fmpq 1)
  let oc := overall_coeff
  if oc.is_one then pure fp
  else
    match oc with
    | .mpz z => pure (fmpq_poly_scalar_mul fp z)
    | oc => do
        let q ← oc.as_mpq
        pure (fmpq_poly_scalar_mul fp q)

/-- The call `fmpq_poly_scalar_mul_fmpq(fp1, fp1, cc)` of `power::useries`,
with the `cc` that is left after `cnum` and `cden` were cleared: it reads
freed memory when `cc` borrowed their limbs. -/
def fmpq_poly_scalar_mul_fmpq (p : fmpq_poly_t) (cc : Option ℚ) : Run fmpq_poly_t :=
  match cc with
  | some c => pure (fmpq_poly_scalar_mul p c)
  | none => Run.throw .use_after_free

/-- The method `power::useries`; `basis_useries` and `exponent_useries` are
the runs of `basis.useries(fp1, order)` and `exponent.useries(fp, order)`.
In the branch of the exponents `n/2` the rational `cc` is what is left of the
read-only `fmpq_t` once `cnum` and `cden` are cleared, as in the source; the
branch of the exponent zero hands the string of the source to the parser. -/
def power_useries (bk : Backend) (basis_useries : Run fmpq_poly_t) (exponent : ex)
    (exponent_useries : Run fmpq_poly_t) (order : Nat) : Run fmpq_poly_t := do
  let fp1 ← basis_useries
  match exponent.to_numeric with
  | none => do
      let fp1 ← flint_series bk .log_series fp1 order
      let fp ← exponent_useries
      let fp := fmpq_poly_mullow fp fp1 (order + 2)
      flint_series bk .exp_series fp order
  | some nexp =>
      if nexp.is_mpq then
        let num := nexp.numer
        let den := nexp.denom
        if den = 2 then
          let c := fmpq_poly_get_coeff fp1 0
          let cnum := c.num
          let cden : ℤ := c.den
          if !(mpz_perfect_square_p cnum) || !(mpz_perfect_square_p cden) then
            Run.throw .flint_error
          else do
            let cc := fmpq_readonly_after_clear (mpz_sqrt cnum) (mpz_sqrt cden)
            let fp1 ← fmpq_poly_scalar_div_fmpq fp1 c
            let fp1 ← flint_series bk .sqrt_series fp1 order
            let fp1 ← fmpq_poly_scalar_mul_fmpq fp1 cc
            if num > 0 then pure (fmpq_poly_pow fp1 num.toNat)
            else do
              let fp1 ← flint_series bk .inv_series fp1 order
              pure (fmpq_poly_pow fp1 (-num).toNat)
        else do
          let fp1 ← flint_series bk .log_series fp1 order
          let q ← nexp.as_mpq
          let fp1 := fmpq_poly_scalar_mul fp1 q
          flint_series bk .exp_series fp1 order
      else
        let expint := nexp.to_int
        if expint > 0 then pure (fmpq_poly_pow fp1 expint.toNat)
        else if expint < 0 then do
          check_poly_ccoeff_one fp1
          let fp1 ← flint_series bk .inv_series fp1 order
          pure (fmpq_poly_pow fp1 (-expint).toNat)
        else pure (fmpq_poly_set_str "1 1")

/-- The method `function::useries`; `arg_useries` is the run of
`seq[0].useries(fp1, order)`. -/
def function_useries (bk : Backend) (serial : Serial) (arg_useries : Run fmpq_poly_t)
    (order : Nat) : Run fmpq_poly_t :=
  match funcmap serial with
  | none => Run.throw .runtime_error
  | some f => do
      let fp1 ← arg_useries
      f bk fp1 order

mutual
/-- The call `the_ex.useries(fp, order)`, dispatched on the class of the expression. -/
def ex_useries (bk : Backend) : ex → Nat → Run fmpq_poly_t
  | .constant _, _ => basic_useries
  | .numeric n, order => numeric_useries n order
  | .symbol _, order => symbol_useries order
  | .function serial arg, order => function_useries bk serial (ex_useries bk arg order) order
  | .power basis exponent, order =>
      power_useries bk (ex_useries bk basis order) exponent (ex_useries bk exponent order) order
  | .add seq overall_coeff, order => add_useries (seq_useries bk seq order) overall_coeff order
  | .mul seq overall_coeff, order => mul_useries (seq_useries bk seq order) overall_coeff order
  | .other _, _ => basic_useries
/-- The runs of `t.useries(fp1, order)` for the operands `t` of a sum or product. -/
def seq_useries (bk : Backend) : List ex → Nat → List (Run fmpq_poly_t)
  | [], _ => []
  | t :: ts, order => ex_useries bk t order :: seq_useries bk ts order
end

/-! ## The result -/

/-- A relation `lhs == rhs`, the expansion variable and point. -/
structure relational where
  lhs : ex
  rhs : ex

/-- An entry of the `epvector` of a power series: a coefficient with its
exponent, or the order term `Order(1)` with the truncation order. -/
inductive expair where
  | term (coeff : ℚ) (exponent : Nat)
  | order_term (order : Nat)
  deriving DecidableEq

/-- A power series value `pseries(r, epv)`. -/
structure pseries where
  r : relational
  epv : List expair

/-- The loop of `useries` over `n = 0, ..., order - 1`. -/
def useries_epv (fp : fmpq_poly_t) (order : Nat) : List expair :=
  (List.range order).filterMap (fun n =>
    if ¬ fmpq_poly_get_coeff fp n = 0 then some (.term (fmpq_poly_get_coeff fp n) n) else none)

/-- The function `useries(the_ex, r, order, options)`. -/
def useries (bk : Backend) (the_ex : ex) (r : relational) (order : Nat) (_options : Nat) :
    Run pseries := do
  let fp ← ex_useries bk the_ex order
  let epv := useries_epv fp order
  pure ⟨r, epv ++ [.order_term order]⟩

/-! ## A reference backend -/

/-- Truncation to length `n`. -/
def trunc (p : fmpq_poly_t) (n : Nat) : fmpq_poly_t := normalise (p.take n)

/-- Multiplies the coefficient of degree `i` by `k + i`. -/
def scale_up : fmpq_poly_t → Nat → fmpq_poly_t
  | [], _ => []
  | a :: p, k => a * k :: scale_up p (k + 1)

/-- Divides the coefficient of degree `i` by `k + i`. -/
def scale_down : fmpq_poly_t → Nat → fmpq_poly_t
  | [], _ => []
  | a :: p, k => a / k :: scale_down p (k + 1)

/-- Formal derivative. -/
def derivative (p : fmpq_poly_t) : fmpq_poly_t := scale_up p.tail 1

/-- Formal integral with constant term zero. -/
def integral (p : fmpq_poly_t) : fmpq_poly_t := 0 :: scale_down p 1

/-- Difference of two polynomials. -/
def fmpq_poly_sub (p q : fmpq_poly_t) : fmpq_poly_t :=
  fmpq_poly_add p (fmpq_poly_scalar_mul q (-1))

/-- Inverse modulo `x ^ n` by the fixed-point iteration `g = (1 - (f - f0) g) / f0`. -/
def ref_inv (f : fmpq_poly_t) (n : Nat) : fmpq_poly_t :=
  (fun g => fmpq_poly_scalar_mul
    (fmpq_poly_sub [1] (fmpq_poly_mullow (0 :: f.tail) g n)) (1 / fmpq_poly_get_coeff f 0))^[n] []

/-- Square root modulo `x ^ n` of a series with constant term one, by the
iteration `h = ((f - 1) - h * h) / 2` for `h = g - 1`. -/
def ref_sqrt (f : fmpq_poly_t) (n : Nat) : fmpq_poly_t :=
  trunc (fmpq_poly_add [1] ((fun h => fmpq_poly_scalar_mul
    (fmpq_poly_sub (trunc (0 :: f.tail) n) (fmpq_poly_mullow h h n)) (1 / 2))^[n] [])) n

/-- Exponential modulo `x ^ n` by the iteration `g = 1 + ∫ f' g`. -/
def ref_exp (f : fmpq_poly_t) (n : Nat) : fmpq_poly_t :=
  (fun g => trunc (fmpq_poly_add [1] (integral (fmpq_poly_mullow (derivative f) g n))) n)^[n] []

/-- Logarithm modulo `x ^ n` as `∫ f' / f`. -/
def ref_log (f : fmpq_poly_t) (n : Nat) : fmpq_poly_t :=
  trunc (integral (fmpq_poly_mullow (derivative f) (ref_inv f n) n)) n

/-- Sine and cosine modulo `x ^ n` by the iteration `s = ∫ f' c`, `c = 1 - ∫ f' s`. -/
def ref_sin_cos (f : fmpq_poly_t) (n : Nat) : fmpq_poly_t × fmpq_poly_t :=
  (fun sc => (trunc (integral (fmpq_poly_mullow (derivative f) sc.2 n)) n,
    trunc (fmpq_poly_sub [1] (integral (fmpq_poly_mullow (derivative f) sc.1 n))) n))^[n] ([], [])

/-- Hyperbolic sine modulo `x ^ n`. -/
def ref_sinh (f : fmpq_poly_t) (n : Nat) : fmpq_poly_t :=
  fmpq_poly_scalar_mul
    (fmpq_poly_sub (ref_exp f n) (ref_exp (fmpq_poly_scalar_mul f (-1)) n)) (1 / 2)

/-- Hyperbolic cosine modulo `x ^ n`. -/
def ref_cosh (f : fmpq_poly_t) (n : Nat) : fmpq_poly_t :=
  fmpq_poly_scalar_mul
    (fmpq_poly_add (ref_exp f n) (ref_exp (fmpq_poly_scalar_mul f (-1)) n)) (1 / 2)

/-- The series `∫ f' / w` modulo `x ^ n`. -/
def ref_int_quot (f w : fmpq_poly_t) (n : Nat) : fmpq_poly_t :=
  trunc (integral (fmpq_poly_mullow (derivative f) (ref_inv w n) n)) n

/-- A reference implementation of the series primitives on their domains. -/
def flint : Backend
  | .exp_series, f, n => ref_exp f n
  | .log_series, f, n => ref_log f n
  | .sin_series, f, n => (ref_sin_cos f n).1
  | .cos_series, f, n => (ref_sin_cos f n).2
  | .tan_series, f, n =>
      fmpq_poly_mullow (ref_sin_cos f n).1 (ref_inv (ref_sin_cos f n).2 n) n
  | .sinh_series, f, n => ref_sinh f n
  | .cosh_series, f, n => ref_cosh f n
  | .tanh_series, f, n => fmpq_poly_mullow (ref_sinh f n) (ref_inv (ref_cosh f n) n) n
  | .asin_series, f, n =>
      ref_int_quot f (ref_sqrt (fmpq_poly_sub [1] (fmpq_poly_mullow f f n)) n) n
  | .asinh_series, f, n =>
      ref_int_quot f (ref_sqrt (fmpq_poly_add [1] (fmpq_poly_mullow f f n)) n) n
  | .atan_series, f, n => ref_int_quot f (fmpq_poly_add [1] (fmpq_poly_mullow f f n)) n
  | .atanh_series, f, n => ref_int_quot f (fmpq_poly_sub [1] (fmpq_poly_mullow f f n)) n
  | .sqrt_series, f, n => ref_sqrt f n
  | .inv_series, f, n => ref_inv f n

/-! ## Vocabulary of the specification -/

/-- The backend primitive that belongs to a listed function. -/
def Serial.primitive : Serial → Option Prim
  | .exp_SERIAL => some .exp_series
  | .log_SERIAL => some .log_series
  | .sin_SERIAL => some .sin_series
  | .cos_SERIAL => some .cos_series
  | .tan_SERIAL => some .tan_series
  | .sinh_SERIAL => some .sinh_series
  | .cosh_SERIAL => some .cosh_series
  | .tanh_SERIAL => some .tanh_series
  | .asin_SERIAL => some .asin_series
  | .asinh_SERIAL => some .asinh_series
  | .atan_SERIAL => some .atan_series
  | .atanh_SERIAL => some .atanh_series
  | .unlisted _ => none

/-- The constant term a listed function requires of its argument: one for
the logarithm, zero for the others. -/
def Serial.required_ccoeff : Serial → ℚ
  | .log_SERIAL => 1
  | _ => 0

/-- The square root `x ^ (1/2)` as an expression. -/
def ex.sqrt (e : ex) : ex := .power e (.numeric (.mpq (1 / 2)))

/-! ## Abstractions used in the proofs -/

/-- The polynomial a coefficient list stands for. -/
noncomputable def to_polynomial : fmpq_poly_t → Polynomial ℚ
  | [] => 0
  | a :: p => Polynomial.C a + Polynomial.X * to_polynomial p

mutual
/-- The nodes of an expression: the expression itself and the nodes of its
operands; the overall coefficient of a sum or product is a numeric node. -/
def ex.nodes : ex → List ex
  | .constant c => [.constant c]
  | .numeric n => [.numeric n]
  | .symbol s => [.symbol s]
  | .function serial arg => .function serial arg :: arg.nodes
  | .power basis exponent => .power basis exponent :: (basis.nodes ++ exponent.nodes)
  | .add seq oc => .add seq oc :: (ex.nodes_seq seq ++ [.numeric oc])
  | .mul seq oc => .mul seq oc :: (ex.nodes_seq seq ++ [.numeric oc])
  | .other t => [.other t]
/-- The nodes of a list of operands. -/
def ex.nodes_seq : List ex → List ex
  | [] => []
  | t :: ts => t.nodes ++ ex.nodes_seq ts
end

/-- Whether a single node is of a kind the fast path handles: no symbolic
constant, no other class, numerics exact, functions listed in `funcmap`. -/
def node_ok : ex → Bool
  | .constant _ => false
  | .other _ => false
  | .numeric v => v.is_mpz || v.is_mpq
  | .function serial _ => (funcmap serial).isSome
  | _ => true

/-- The symbol of a symbol node. -/
def node_symbol : ex → Option symbol
  | .symbol s => some s
  | _ => none

/-- What the classifier does on a sequence of symbols: the first symbol seen
is stored, every later one is compared with the stored one. -/
def scan_symbols : List symbol → classifier_state → Bool × classifier_state
  | [], st => (false, st)
  | s :: l, st =>
      if !st.first_symbol then (if s = st.symb then scan_symbols l st else (true, st))
      else scan_symbols l ⟨false, s⟩

/-- The classifier on an expression, in terms of its nodes. -/
def classifier_spec (L : List ex) (r : Bool × classifier_state) (st : classifier_state) : Prop :=
  (r.1 = false ↔ (∀ n ∈ L, node_ok n = true) ∧ (scan_symbols (L.filterMap node_symbol) st).1 = false)
  ∧ (r.1 = false → r.2 = (scan_symbols (L.filterMap node_symbol) st).2)

/-- The functions the fast path supports. -/
def whitelist : List Serial :=
  [.exp_SERIAL, .log_SERIAL, .sin_SERIAL, .cos_SERIAL, .tan_SERIAL, .sinh_SERIAL,
   .cosh_SERIAL, .tanh_SERIAL, .asin_SERIAL, .asinh_SERIAL, .atan_SERIAL, .atanh_SERIAL]

/-! ## Vocabulary of the later claims -/

/-- The exact product of a list of polynomials. -/
def poly_prod : List fmpq_poly_t → fmpq_poly_t
  | [] => [1]
  | p :: ps => fmpq_poly_mul p (poly_prod ps)

/-- The coefficient of degree `n` read back from a pair list: that of the
first pair with exponent `n`, zero when there is none. -/
def epv_coeff : List expair → Nat → ℚ
  | [], _ => 0
  | .term c m :: l, n => if m = n then c else epv_coeff l n
  | .order_term _ :: l, n => epv_coeff l n

/-- The coefficient list of length `order` rebuilt from a pair list. -/
def epv_rebuild (epv : List expair) (order : Nat) : List ℚ :=
  (List.range order).map (epv_coeff epv)

/-- The exponents of the coefficient pairs of a pair list, in order. -/
def epv_exponents : List expair → List Nat
  | [] => []
  | .term _ m :: l => m :: epv_exponents l
  | .order_term _ :: l => epv_exponents l

mutual
/-- The expression with every symbol `s` replaced by `f s`. -/
def ex.rename (f : GiNaC.symbol → GiNaC.symbol) : ex → ex
  | .constant c => .constant c
  | .numeric n => .numeric n
  | .symbol s => .symbol (f s)
  | .function serial arg => .function serial (arg.rename f)
  | .power basis exponent => .power (basis.rename f) (exponent.rename f)
  | .add seq oc => .add (ex.rename_seq f seq) oc
  | .mul seq oc => .mul (ex.rename_seq f seq) oc
  | .other t => .other t
/-- The operands with every symbol `s` replaced by `f s`. -/
def ex.rename_seq (f : GiNaC.symbol → GiNaC.symbol) : List ex → List ex
  | [] => []
  | t :: ts => t.rename f :: ex.rename_seq f ts
end

/-- A run that does not end in the internal-consistency fault. -/
def Run.no_fault {α : Type} (r : Run α) : Prop := r.out ≠ .error .runtime_error

/-- The series a run returned; the zero series for a run that failed. -/
def Run.value (r : Run fmpq_poly_t) : fmpq_poly_t :=
  match r.out with
  | .ok p => p
  | .error _ => []

open Polynomial

/-! ## The two strings of the program -/

@[simp] theorem fmpq_poly_set_str_symbol : fmpq_poly_set_str "2  0 1" = [0, 1] := by
  decide

@[simp] theorem fmpq_poly_set_str_one : fmpq_poly_set_str "1 1" = [] := by
  decide

theorem symbol_useries_eq (order : Nat) : symbol_useries order = ⟨[], .ok [0, 1]⟩ := by
  rw [symbol_useries, fmpq_poly_set_str_symbol]
  rfl

/-! ## Runs -/

@[simp] theorem Run.bind_eq {α β : Type} (r : Run α) (f : α → Run β) :
    (r >>= f) = Run.andThen r f := rfl

@[simp] theorem Run.pure_eq {α : Type} (a : α) : (pure a : Run α) = Run.ret a := rfl

theorem Run.andThen_ok {α β : Type} (r : Run α) (f : α → Run β) (a : α)
    (h : r.out = .ok a) :
    (Run.andThen r f).out = (f a).out ∧ (Run.andThen r f).calls = r.calls ++ (f a).calls := by
  simp [Run.andThen, h]

theorem Run.andThen_error {α β : Type} (r : Run α) (f : α → Run β) (e : Err)
    (h : r.out = .error e) :
    (Run.andThen r f).out = .error e ∧ (Run.andThen r f).calls = r.calls := by
  simp [Run.andThen, h]

/-! ## Coefficients and the polynomial of a coefficient list -/

@[simp] theorem get_coeff_nil (i : Nat) : fmpq_poly_get_coeff [] i = 0 := by
  simp [fmpq_poly_get_coeff]

@[simp] theorem get_coeff_cons_zero (a : ℚ) (p : fmpq_poly_t) :
    fmpq_poly_get_coeff (a :: p) 0 = a := by
  simp [fmpq_poly_get_coeff]

@[simp] theorem get_coeff_cons_succ (a : ℚ) (p : fmpq_poly_t) (i : Nat) :
    fmpq_poly_get_coeff (a :: p) (i + 1) = fmpq_poly_get_coeff p i := by
  simp [fmpq_poly_get_coeff]

theorem normalise_eq_nil (p : fmpq_poly_t) (h : normalise p = []) (i : Nat) :
    fmpq_poly_get_coeff p i = 0 := by
  induction p generalizing i with
  | nil => simp
  | cons a p ih =>
      by_cases hc : normalise p = [] ∧ a = 0
      · cases i with
        | zero => simp [hc.2]
        | succ i => simpa using ih hc.1 i
      · simp [normalise, hc] at h

@[simp] theorem get_coeff_normalise (p : fmpq_poly_t) (i : Nat) :
    fmpq_poly_get_coeff (normalise p) i = fmpq_poly_get_coeff p i := by
  induction p generalizing i with
  | nil => simp [normalise]
  | cons a p ih =>
      by_cases hc : normalise p = [] ∧ a = 0
      · rw [normalise_eq_nil (a :: p) (by simp [normalise, hc]) i]
        simp [normalise, hc]
      · cases i with
        | zero => simp [normalise, hc]
        | succ i => simp [normalise, hc, ih]

theorem coeff_to_polynomial (p : fmpq_poly_t) (i : Nat) :
    (to_polynomial p).coeff i = fmpq_poly_get_coeff p i := by
  induction p generalizing i with
  | nil => simp [to_polynomial]
  | cons a p ih =>
      cases i with
      | zero => simp [to_polynomial]
      | succ i => simp [to_polynomial, ih, Polynomial.coeff_C]

theorem to_polynomial_eq_of_coeff (p q : fmpq_poly_t)
    (h : ∀ i, fmpq_poly_get_coeff p i = fmpq_poly_get_coeff q i) :
    to_polynomial p = to_polynomial q := by
  ext i
  simp [coeff_to_polynomial, h]

@[simp] theorem to_polynomial_normalise (p : fmpq_poly_t) :
    to_polynomial (normalise p) = to_polynomial p :=
  to_polynomial_eq_of_coeff _ _ (get_coeff_normalise p)

theorem to_polynomial_add_coeffs (p q : fmpq_poly_t) :
    to_polynomial (add_coeffs p q) = to_polynomial p + to_polynomial q := by
  induction p generalizing q with
  | nil => simp [add_coeffs, to_polynomial]
  | cons a p ih =>
      cases q with
      | nil => simp [add_coeffs, to_polynomial]
      | cons b q =>
          simp only [add_coeffs, to_polynomial, ih, map_add]
          ring

theorem to_polynomial_map_mul_left (a : ℚ) (p : fmpq_poly_t) :
    to_polynomial (p.map (fun b => a * b)) = C a * to_polynomial p := by
  induction p with
  | nil => simp [to_polynomial]
  | cons b p ih =>
      simp only [List.map_cons, to_polynomial, ih, map_mul]
      ring

theorem to_polynomial_map_mul_right (a : ℚ) (p : fmpq_poly_t) :
    to_polynomial (p.map (fun b => b * a)) = C a * to_polynomial p := by
  induction p with
  | nil => simp [to_polynomial]
  | cons b p ih =>
      simp only [List.map_cons, to_polynomial, ih, map_mul]
      ring

theorem to_polynomial_mul_coeffs (p q : fmpq_poly_t) :
    to_polynomial (mul_coeffs p q) = to_polynomial p * to_polynomial q := by
  induction p with
  | nil => simp [mul_coeffs, to_polynomial]
  | cons a p ih =>
      simp only [mul_coeffs, to_polynomial_add_coeffs, to_polynomial_map_mul_left,
        to_polynomial, ih, map_zero]
      ring

@[simp] theorem to_polynomial_mul (p q : fmpq_poly_t) :
    to_polynomial (fmpq_poly_mul p q) = to_polynomial p * to_polynomial q := by
  simp [fmpq_poly_mul, to_polynomial_mul_coeffs]

@[simp] theorem to_polynomial_add (p q : fmpq_poly_t) :
    to_polynomial (fmpq_poly_add p q) = to_polynomial p + to_polynomial q := by
  simp [fmpq_poly_add, to_polynomial_add_coeffs]

@[simp] theorem to_polynomial_scalar_mul (p : fmpq_poly_t) (c : ℚ) :
    to_polynomial (fmpq_poly_scalar_mul p c) = C c * to_polynomial p := by
  simp [fmpq_poly_scalar_mul, to_polynomial_map_mul_right]

@[simp] theorem to_polynomial_pow (p : fmpq_poly_t) (e : Nat) :
    to_polynomial (fmpq_poly_pow p e) = to_polynomial p ^ e := by
  induction e with
  | zero => simp [fmpq_poly_pow, to_polynomial]
  | succ e ih => simp [fmpq_poly_pow, ih, pow_succ]

theorem get_coeff_take (p : fmpq_poly_t) (n i : Nat) :
    fmpq_poly_get_coeff (p.take n) i = if i < n then fmpq_poly_get_coeff p i else 0 := by
  induction p generalizing n i with
  | nil => simp
  | cons a p ih =>
      cases n with
      | zero => simp
      | succ n =>
          cases i with
          | zero => simp
          | succ i => simp [ih]

theorem get_coeff_mullow (p q : fmpq_poly_t) (n i : Nat) :
    fmpq_poly_get_coeff (fmpq_poly_mullow p q n) i
      = if i < n then (to_polynomial p * to_polynomial q).coeff i else 0 := by
  simp [fmpq_poly_mullow, get_coeff_take, ← to_polynomial_mul_coeffs, coeff_to_polynomial]

theorem get_coeff_map_div (p : fmpq_poly_t) (c : ℚ) (i : Nat) :
    fmpq_poly_get_coeff (p.map (fun a => a / c)) i = fmpq_poly_get_coeff p i / c := by
  induction p generalizing i with
  | nil => simp
  | cons a p ih =>
      cases i with
      | zero => simp
      | succ i => simp [ih]

theorem get_coeff_scalar_div (p : fmpq_poly_t) (c : ℚ) (i : Nat) :
    fmpq_poly_get_coeff (fmpq_poly_scalar_div p c) i = fmpq_poly_get_coeff p i / c := by
  simp [fmpq_poly_scalar_div, get_coeff_map_div]

theorem get_coeff_mul (p q : fmpq_poly_t) (i : Nat) :
    fmpq_poly_get_coeff (fmpq_poly_mul p q) i = (to_polynomial p * to_polynomial q).coeff i := by
  rw [← to_polynomial_mul, coeff_to_polynomial]

theorem get_coeff_mul_coeffs (p q : fmpq_poly_t) (i : Nat) :
    fmpq_poly_get_coeff (fmpq_poly_mul p q) i = fmpq_poly_get_coeff (mul_coeffs p q) i := by
  simp [fmpq_poly_mul]

/-! ## Numerators, denominators and square roots -/

theorem mpz_perfect_square_p_iff (z : ℤ) : mpz_perfect_square_p z = true ↔ IsSquare z := by
  simp only [mpz_perfect_square_p, decide_eq_true_eq, ← Int.exists_mul_self, IsSquare]
  constructor
  · rintro ⟨r, hr⟩
    exact ⟨r, hr.symm⟩
  · rintro ⟨r, hr⟩
    exact ⟨r, hr.symm⟩

theorem half_integer_den (n : ℤ) (hn : Odd n) : (((n : ℚ) / 2).den : ℤ) = 2 := by
  have h := Rat.den_div_eq_of_coprime (a := n) (b := 2) (by norm_num)
    (by simpa using (Int.natAbs_odd.2 hn))
  simpa using h

theorem half_integer_num (n : ℤ) (hn : Odd n) : ((n : ℚ) / 2).num = n := by
  have h := Rat.num_div_eq_of_coprime (a := n) (b := 2) (by norm_num)
    (by simpa using (Int.natAbs_odd.2 hn))
  simpa using h

theorem sqrt_ratio_sq (c : ℚ) (hnum : IsSquare c.num) (hden : IsSquare (c.den : ℤ)) :
    ((mpz_sqrt c.num : ℚ) / (mpz_sqrt (c.den : ℤ) : ℚ))
      * ((mpz_sqrt c.num : ℚ) / (mpz_sqrt (c.den : ℤ) : ℚ)) = c := by
  have h1 : Int.sqrt c.num * Int.sqrt c.num = c.num :=
    (Int.exists_mul_self _).1 (by obtain ⟨r, hr⟩ := hnum; exact ⟨r, hr.symm⟩)
  have h2 : Int.sqrt (c.den : ℤ) * Int.sqrt (c.den : ℤ) = (c.den : ℤ) :=
    (Int.exists_mul_self _).1 (by obtain ⟨r, hr⟩ := hden; exact ⟨r, hr.symm⟩)
  have h1' : ((Int.sqrt c.num : ℤ) : ℚ) * (Int.sqrt c.num : ℚ) = (c.num : ℚ) := by
    exact_mod_cast h1
  have h2' : ((Int.sqrt (c.den : ℤ) : ℤ) : ℚ) * (Int.sqrt (c.den : ℤ) : ℚ) = (c.den : ℚ) := by
    exact_mod_cast h2
  simp only [mpz_sqrt]
  rw [div_mul_div_comm, h1', h2']
  exact Rat.num_div_den c

theorem sqrt_ratio_nonneg (c : ℚ) :
    0 ≤ (mpz_sqrt c.num : ℚ) / (mpz_sqrt (c.den : ℤ) : ℚ) := by
  apply div_nonneg
  · exact_mod_cast Int.sqrt_nonneg _
  · exact_mod_cast Int.sqrt_nonneg _

theorem mpz_to_int (n : ℤ) : (numeric.mpz n).to_int = n := by
  simp [numeric.to_int, numeric.value]

/-! ## Evaluations on concrete inputs -/

theorem add_symbol_useries (bk : Backend) (s : symbol) (z : ℤ) (order : Nat) (hz : z ≠ 0) :
    ex_useries bk (.add [.symbol s] (.mpz z)) order = ⟨[], .ok [(z : ℚ), 1]⟩ := by
  have hz' : (z : ℚ) ≠ 0 := by exact_mod_cast hz
  simp [ex_useries, seq_useries, add_useries, add_useries_loop, symbol_useries,
    numeric_useries, Run.andThen, Run.ret, numeric.is_zero, numeric.value,
    fmpq_poly_set_fmpq, fmpq_poly_add, add_coeffs, normalise, hz']

theorem ref_sqrt_eval : flint .sqrt_series [1, 1 / 4] 3 = [1, 1 / 8, -1 / 128] := by
  simp [flint, ref_sqrt, trunc, fmpq_poly_add, fmpq_poly_sub, fmpq_poly_scalar_mul,
    fmpq_poly_mullow, mul_coeffs, add_coeffs, normalise, Function.iterate_succ]
  norm_num

/-- C1: for a listed function `serial` with backend primitive `f`, an
argument whose composition at `order ≥ 1` succeeds with `A`: the composition
of the function call throws `flint_error` exactly when the constant term of
`A` is not the required one (zero, or one for the logarithm), and then no
backend call is added to those of the argument; otherwise it returns the
result of the primitive `f` on `A` at `order`, called once. The logarithm of
a symbol throws `flint_error` at every order. -/
theorem function_useries_precondition (bk : Backend) (serial : Serial) (f : Prim) (arg : ex)
    (order : Nat) (A : fmpq_poly_t) (hid : serial.primitive = some f) (_horder : 1 ≤ order)
    (hA : (ex_useries bk arg order).out = .ok A) :
    ((ex_useries bk (.function serial arg) order).out = .error .flint_error
        ↔ fmpq_poly_get_coeff A 0 ≠ serial.required_ccoeff)
    ∧ ((ex_useries bk (.function serial arg) order).out = .error .flint_error →
        (ex_useries bk (.function serial arg) order).calls = (ex_useries bk arg order).calls)
    ∧ (fmpq_poly_get_coeff A 0 = serial.required_ccoeff →
        (ex_useries bk (.function serial arg) order).out = .ok (bk f A order)
        ∧ (ex_useries bk (.function serial arg) order).calls
            = (ex_useries bk arg order).calls ++ [.series f A order])
    ∧ (∀ (s : symbol) (N : Nat), 1 ≤ N →
        (ex_useries bk (.function .log_SERIAL (.symbol s)) N).out = .error .flint_error) := by
  refine ⟨?_, ?_, ?_, ?_⟩
  · cases serial <;> simp [Serial.primitive] at hid <;> subst hid <;>
      by_cases hc : fmpq_poly_get_coeff A 0 = 0 <;>
      by_cases hc1 : fmpq_poly_get_coeff A 0 = 1 <;>
      simp [ex_useries, function_useries, funcmap, Run.andThen, hA, exp_useries, log_useries,
        sin_useries, cos_useries, tan_useries, sinh_useries, cosh_useries, tanh_useries,
        asin_useries, asinh_useries, atan_useries, atanh_useries, check_poly_ccoeff_zero,
        check_poly_ccoeff_one, flint_series, Prim.in_domain, Run.throw, Run.ret,
        Serial.required_ccoeff, hc, hc1]
  · cases serial <;> simp [Serial.primitive] at hid <;> subst hid <;>
      by_cases hc : fmpq_poly_get_coeff A 0 = 0 <;>
      by_cases hc1 : fmpq_poly_get_coeff A 0 = 1 <;>
      simp [ex_useries, function_useries, funcmap, Run.andThen, hA, exp_useries, log_useries,
        sin_useries, cos_useries, tan_useries, sinh_useries, cosh_useries, tanh_useries,
        asin_useries, asinh_useries, atan_useries, atanh_useries, check_poly_ccoeff_zero,
        check_poly_ccoeff_one, flint_series, Prim.in_domain, Run.throw, Run.ret,
        Serial.required_ccoeff, hc, hc1]
  · intro hreq
    cases serial <;> simp [Serial.primitive] at hid <;> subst hid <;>
      simp [Serial.required_ccoeff] at hreq <;>
      simp [ex_useries, function_useries, funcmap, Run.andThen, hA, exp_useries, log_useries,
        sin_useries, cos_useries, tan_useries, sinh_useries, cosh_useries, tanh_useries,
        asin_useries, asinh_useries, atan_useries, atanh_useries, check_poly_ccoeff_zero,
        check_poly_ccoeff_one, flint_series, Prim.in_domain, Run.throw, Run.ret, hreq]
  · intro s N _
    simp [ex_useries, function_useries, funcmap, Run.andThen, symbol_useries, log_useries,
      check_poly_ccoeff_one, Run.throw, Run.ret, fmpq_poly_get_coeff]

/-- Witness of C1: the exponential of a symbol at order 4. -/
theorem function_useries_precondition_witness :
    Serial.exp_SERIAL.primitive = some .exp_series ∧ 1 ≤ 4
    ∧ (ex_useries flint (.symbol ⟨0⟩) 4).out = .ok [0, 1]
    ∧ (ex_useries flint (.function .exp_SERIAL (.symbol ⟨0⟩)) 4).out
        = .ok (flint .exp_series [0, 1] 4) :=
  ⟨rfl, by decide, rfl,
   ((function_useries_precondition flint .exp_SERIAL .exp_series (.symbol ⟨0⟩) 4 [0, 1]
      rfl (by decide) rfl).2.2.1 rfl).1⟩

/-! ## C2: the half-integer exponent and a zero constant term -/

/-- C2 (what the code does instead): for an exponent `n/2` with `n` odd and a
base whose series `B` has constant term zero, the perfect-square test passes
(`0` and `1` are perfect squares), `fmpq_poly_scalar_div_fmpq` is called with
the divisor `0`, and Flint aborts; the result is not `flint_error`. -/
theorem power_half_integer_zero_aborts (bk : Backend) (base : ex) (order : Nat)
    (B : fmpq_poly_t) (n : ℤ) (hn : Odd n) (_horder : 1 ≤ order)
    (hB : (ex_useries bk base order).out = .ok B) (hc : fmpq_poly_get_coeff B 0 = 0) :
    (ex_useries bk (.power base (.numeric (.mpq (n / 2)))) order).out = .error .flint_abort
    ∧ (ex_useries bk (.power base (.numeric (.mpq (n / 2)))) order).calls
        = (ex_useries bk base order).calls ++ [.scalar_div_fmpq B 0] := by
  simp [ex_useries, power_useries, Run.andThen, hB, ex.to_numeric, numeric.is_mpq,
    numeric.denom, numeric.numer, numeric.value, half_integer_den n hn, hc,
    mpz_perfect_square_p, fmpq_poly_scalar_div_fmpq, Run.throw]

/-- Witness of C2: the square root of a symbol. -/
theorem power_half_integer_zero_aborts_witness :
    Odd (1 : ℤ) ∧ (ex_useries flint (.symbol ⟨0⟩) 1).out = .ok [0, 1]
    ∧ fmpq_poly_get_coeff [0, 1] 0 = 0
    ∧ (ex_useries flint (.power (.symbol ⟨0⟩) (.numeric (.mpq ((1 : ℤ) / 2)))) 1).out
        = .error .flint_abort :=
  ⟨odd_one, rfl, rfl,
   (power_half_integer_zero_aborts flint (.symbol ⟨0⟩) 1 [0, 1] 1 odd_one (by decide) rfl rfl).1⟩

/-! ## C3: the exponent zero -/

/-- The base is composed before the exponent is looked at, so a base that
throws makes `base ^ 0` throw: `log(x) ^ 0` is `flint_error`, not the
constant series one. -/
theorem power_zero_of_log_symbol :
    (ex_useries flint (.power (.function .log_SERIAL (.symbol ⟨0⟩)) (.numeric (.mpz 0))) 1).out
        = .error .flint_error
    ∧ (ex_useries flint (.power (.function .log_SERIAL (.symbol ⟨0⟩)) (.numeric (.mpz 0))) 1).out
        ≠ .ok [1] := by
  simp [ex_useries, power_useries, function_useries, funcmap, log_useries, symbol_useries,
    check_poly_ccoeff_one, Run.andThen, Run.ret, Run.throw]

/-- C3 (what the code does instead): for every base whose own composition at
`order ≥ 1` succeeds, the composition of `base ^ 0` succeeds with no further
backend call, but with the zero polynomial and not the constant series one.
The string `"1 1"` handed to `fmpq_poly_set_str` has one blank after the
length where the format has two (as in `"2  0 1"`): the parser reads an
empty token, fails and leaves the polynomial zero; with two blanks it gives
the constant one. -/
theorem power_zero_exponent_is_zero (bk : Backend) (base : ex) (order : Nat)
    (B : fmpq_poly_t) (_horder : 1 ≤ order) (hB : (ex_useries bk base order).out = .ok B) :
    (ex_useries bk (.power base (.numeric (.mpz 0))) order).out = .ok (fmpq_poly_set_str "1 1")
    ∧ fmpq_poly_set_str "1 1" = []
    ∧ fmpq_poly_set_str "1  1" = [1]
    ∧ (ex_useries bk (.power base (.numeric (.mpz 0))) order).out ≠ .ok [1]
    ∧ (ex_useries bk (.power base (.numeric (.mpz 0))) order).calls
        = (ex_useries bk base order).calls := by
  refine ⟨?_, by decide, by decide, ?_, ?_⟩ <;>
    simp [ex_useries, power_useries, Run.andThen, hB, ex.to_numeric, numeric.is_mpq,
      numeric.to_int, numeric.value, Run.ret]

/-- Witness of C3: `x ^ 0` at order 1 is the zero polynomial. -/
theorem power_zero_exponent_is_zero_witness :
    1 ≤ 1 ∧ (ex_useries flint (.symbol ⟨0⟩) 1).out = .ok [0, 1]
    ∧ (ex_useries flint (.power (.symbol ⟨0⟩) (.numeric (.mpz 0))) 1).out = .ok [] :=
  ⟨by decide, rfl,
   (power_zero_exponent_is_zero flint (.symbol ⟨0⟩) 1 [0, 1] (by decide) rfl).1⟩

/-! ## C4: the classifier state between passes -/

/-- C4 (what the code does instead): for two different symbols `x` and `y`,
the lone symbol `x` and the lone symbol `y` are each accepted from the state
at program start, but `y` is rejected in the state left behind by the pass
over `x`: `first_symbol` and `symb` are never reset. -/
theorem classifier_state_leaks (x y : symbol) (hxy : y ≠ x) :
    (useries_can_handle (.symbol x) .initial).1 = true
    ∧ (useries_can_handle (.symbol y) .initial).1 = true
    ∧ (useries_can_handle (.symbol x) .initial).2 = ⟨false, x⟩
    ∧ (useries_can_handle (.symbol y) (useries_can_handle (.symbol x) .initial).2).1
        = false := by
  simp [useries_can_handle, unhandled_elements_in, classifier_state.initial, hxy]

/-- Witness of C4: the symbols with serial numbers 1 and 2. -/
theorem classifier_state_leaks_witness :
    (⟨2⟩ : symbol) ≠ ⟨1⟩
    ∧ (useries_can_handle (.symbol ⟨2⟩) .initial).1 = true
    ∧ (useries_can_handle (.symbol ⟨2⟩) (useries_can_handle (.symbol ⟨1⟩) .initial).2).1
        = false :=
  ⟨by decide, (classifier_state_leaks ⟨1⟩ ⟨2⟩ (by decide)).2.1,
   (classifier_state_leaks ⟨1⟩ ⟨2⟩ (by decide)).2.2.2⟩

/-! ## C5: what the classifier accepts -/

theorem scan_symbols_append (l1 l2 : List symbol) (st : classifier_state) :
    scan_symbols (l1 ++ l2) st
      = if (scan_symbols l1 st).1 then (true, (scan_symbols l1 st).2)
        else scan_symbols l2 (scan_symbols l1 st).2 := by
  induction l1 generalizing st with
  | nil => simp [scan_symbols]
  | cons s l ih =>
      by_cases h1 : st.first_symbol
      · simp [scan_symbols, h1, ih]
      · by_cases h2 : s = st.symb
        · simp [scan_symbols, h1, h2, ih]
        · simp [scan_symbols, h1, h2]

theorem scan_symbols_known (l : List symbol) (st : classifier_state)
    (h : st.first_symbol = false) :
    (scan_symbols l st).1 = false ↔ ∀ s ∈ l, s = st.symb := by
  induction l with
  | nil => simp [scan_symbols]
  | cons s l ih =>
      by_cases h2 : s = st.symb
      · simp [scan_symbols, h, h2, ih]
      · simp [scan_symbols, h, h2]

theorem scan_symbols_initial (l : List symbol) (st : classifier_state)
    (h : st.first_symbol = true) :
    (scan_symbols l st).1 = false ↔ ∀ s ∈ l, ∀ t ∈ l, s = t := by
  cases l with
  | nil => simp [scan_symbols]
  | cons a l =>
      simp only [scan_symbols, h, Bool.not_true, Bool.false_eq_true, if_false]
      rw [scan_symbols_known l ⟨false, a⟩ rfl]
      constructor
      · intro hl s hs t ht
        have hs' : s = a := by
          rcases List.mem_cons.1 hs with h | h
          · exact h
          · exact hl s h
        have ht' : t = a := by
          rcases List.mem_cons.1 ht with h | h
          · exact h
          · exact hl t h
        rw [hs', ht']
      · intro hl s hs
        exact hl s (List.mem_cons_of_mem _ hs) a (List.mem_cons_self _ _)

theorem classifier_spec_append (L1 L2 : List ex) (st : classifier_state)
    (r1 r2 : Bool × classifier_state)
    (h1 : classifier_spec L1 r1 st) (h2 : r1.1 = false → classifier_spec L2 r2 r1.2) :
    classifier_spec (L1 ++ L2) (if r1.1 then (true, r1.2) else r2) st := by
  rcases r1 with ⟨b1, s1⟩
  cases b1 with
  | true =>
      have hn := h1.1
      simp only [Bool.true_eq_false, false_iff, not_and] at hn
      refine ⟨?_, by simp⟩
      simp only [if_true, Bool.true_eq_false, false_iff, not_and]
      intro hall
      have := hn (fun n hn' => hall n (List.mem_append_left _ hn'))
      simp only [List.filterMap_append, scan_symbols_append]
      simp only [Bool.not_eq_false] at this
      simp [this]
  | false =>
      have ha := h1.1.1 rfl
      have hs := h1.2 rfl
      have h2' := h2 rfl
      simp only at hs h2'
      simp only [Bool.false_eq_true, if_false, classifier_spec, List.filterMap_append,
        scan_symbols_append, ha.2, ← hs]
      refine ⟨?_, ?_⟩
      · rw [h2'.1]
        constructor
        · rintro ⟨hx, hy⟩
          exact ⟨fun n hn => (List.mem_append.1 hn).elim (ha.1 n) (hx n), hy⟩
        · rintro ⟨hx, hy⟩
          exact ⟨fun n hn => hx n (List.mem_append_right _ hn), hy⟩
      · exact h2'.2

theorem classifier_spec_cons (n : ex) (L : List ex) (st : classifier_state)
    (r : Bool × classifier_state) (hok : node_ok n = true) (hsym : node_symbol n = none)
    (h : classifier_spec L r st) : classifier_spec (n :: L) r st := by
  simpa [classifier_spec, hok, hsym] using h

theorem classifier_spec_numeric (v : numeric) (st : classifier_state) :
    classifier_spec [.numeric v] (!(v.is_mpz || v.is_mpq), st) st := by
  cases v <;> simp [classifier_spec, node_ok, node_symbol, scan_symbols, numeric.is_mpz,
    numeric.is_mpq]

theorem classifier_spec_seq_coeff (L : List ex) (oc : numeric) (st : classifier_state)
    (r : Bool × classifier_state) (h : classifier_spec L r st) :
    classifier_spec (L ++ [.numeric oc])
      (if r.1 then (true, r.2) else (!(oc.is_mpz || oc.is_mpq), r.2)) st :=
  classifier_spec_append L [.numeric oc] st r (!(oc.is_mpz || oc.is_mpq), r.2) h
    (fun _ => classifier_spec_numeric oc r.2)

mutual
theorem unhandled_elements_in_spec : ∀ (e : ex) (st : classifier_state),
    classifier_spec e.nodes (unhandled_elements_in e st) st
  | .constant c, st => by
      simp [classifier_spec, unhandled_elements_in, ex.nodes, node_ok]
  | .numeric n, st => by
      simpa [unhandled_elements_in, ex.nodes] using classifier_spec_numeric n st
  | .symbol s, st => by
      by_cases h1 : st.first_symbol
      · simp [classifier_spec, unhandled_elements_in, ex.nodes, node_ok, node_symbol,
          scan_symbols, h1]
      · by_cases h2 : s = st.symb
        · simp [classifier_spec, unhandled_elements_in, ex.nodes, node_ok, node_symbol,
            scan_symbols, h1, h2]
        · simp [classifier_spec, unhandled_elements_in, ex.nodes, node_ok, node_symbol,
            scan_symbols, h1, h2]
  | .function serial arg, st => by
      have ha := unhandled_elements_in_spec arg st
      cases hf : funcmap serial with
      | none =>
          simp [classifier_spec, unhandled_elements_in, ex.nodes, node_ok, hf]
      | some f =>
          have := classifier_spec_cons (.function serial arg) arg.nodes st _
            (by simp [node_ok, hf]) rfl ha
          rcases hr : unhandled_elements_in arg st with ⟨b, s⟩
          rw [hr] at this
          cases b <;> simpa [unhandled_elements_in, ex.nodes, hf, hr] using this
  | .power basis exponent, st => by
      have hb := unhandled_elements_in_spec basis st
      have := classifier_spec_cons (.power basis exponent) _ st _ rfl rfl
        (classifier_spec_append basis.nodes exponent.nodes st _ _ hb
          (fun _ => unhandled_elements_in_spec exponent _))
      rcases hr : unhandled_elements_in basis st with ⟨b, s⟩
      rw [hr] at this
      cases b <;> simpa [unhandled_elements_in, ex.nodes, hr] using this
  | .add seq oc, st => by
      have hs := unhandled_elements_in_seq_spec seq st
      have := classifier_spec_cons (.add seq oc) _ st _ rfl rfl
        (classifier_spec_seq_coeff _ oc st _ hs)
      rcases hr : unhandled_elements_in_seq seq st with ⟨b, s⟩
      rw [hr] at this
      cases b <;> simpa [unhandled_elements_in, ex.nodes, hr] using this
  | .mul seq oc, st => by
      have hs := unhandled_elements_in_seq_spec seq st
      have := classifier_spec_cons (.mul seq oc) _ st _ rfl rfl
        (classifier_spec_seq_coeff _ oc st _ hs)
      rcases hr : unhandled_elements_in_seq seq st with ⟨b, s⟩
      rw [hr] at this
      cases b <;> simpa [unhandled_elements_in, ex.nodes, hr] using this
  | .other t, st => by
      simp [classifier_spec, unhandled_elements_in, ex.nodes, node_ok]
theorem unhandled_elements_in_seq_spec : ∀ (seq : List ex) (st : classifier_state),
    classifier_spec (ex.nodes_seq seq) (unhandled_elements_in_seq seq st) st
  | [], st => by
      simp [classifier_spec, unhandled_elements_in_seq, ex.nodes_seq, scan_symbols]
  | t :: ts, st => by
      have ht := unhandled_elements_in_spec t st
      have := classifier_spec_append t.nodes (ex.nodes_seq ts) st _ _ ht
        (fun _ => unhandled_elements_in_seq_spec ts _)
      rcases hr : unhandled_elements_in t st with ⟨b, s⟩
      rw [hr] at this
      cases b <;> simpa [unhandled_elements_in_seq, ex.nodes_seq, hr] using this
end

theorem mem_whitelist_iff (serial : Serial) :
    serial ∈ whitelist ↔ (funcmap serial).isSome = true := by
  cases serial <;> simp [whitelist, funcmap]

theorem mem_filterMap_node_symbol (L : List ex) (s : symbol) :
    s ∈ L.filterMap node_symbol ↔ ex.symbol s ∈ L := by
  rw [List.mem_filterMap]
  constructor
  · rintro ⟨a, ha, hs⟩
    cases a <;> simp [node_symbol] at hs
    subst hs
    exact ha
  · intro h
    exact ⟨_, h, rfl⟩

theorem node_ok_iff (n : ex) :
    node_ok n = true ↔
      ((∀ c, n ≠ .constant c) ∧ (∀ t, n ≠ .other t))
      ∧ (∀ v, n = .numeric v → v.is_mpz = true ∨ v.is_mpq = true)
      ∧ (∀ serial arg, n = .function serial arg → serial ∈ whitelist) := by
  cases n <;> simp [node_ok, mem_whitelist_iff]

theorem all_node_ok_iff (L : List ex) :
    (∀ n ∈ L, node_ok n = true) ↔
      (∀ n ∈ L, (∀ c, n ≠ .constant c) ∧ (∀ t, n ≠ .other t))
      ∧ (∀ v, ex.numeric v ∈ L → v.is_mpz = true ∨ v.is_mpq = true)
      ∧ (∀ serial arg, ex.function serial arg ∈ L → serial ∈ whitelist) := by
  constructor
  · intro h
    refine ⟨fun n hn => ((node_ok_iff n).1 (h n hn)).1, fun v hv => ?_, fun serial arg hf => ?_⟩
    · exact ((node_ok_iff _).1 (h _ hv)).2.1 v rfl
    · exact ((node_ok_iff _).1 (h _ hf)).2.2 serial arg rfl
  · rintro ⟨h1, h2, h3⟩ n hn
    refine (node_ok_iff n).2 ⟨h1 n hn, fun v hv => ?_, fun serial arg hf => ?_⟩
    · subst hv
      exact h2 v hn
    · subst hf
      exact h3 serial arg hn

theorem useries_can_handle_initial (e : ex) :
    (useries_can_handle e .initial).1 = true ↔
      (∀ n ∈ e.nodes, node_ok n = true)
      ∧ (∀ s t, ex.symbol s ∈ e.nodes → ex.symbol t ∈ e.nodes → s = t) := by
  have h := (unhandled_elements_in_spec e .initial).1
  rw [scan_symbols_initial _ _ rfl] at h
  simp only [useries_can_handle, Bool.not_eq_true', h, mem_filterMap_node_symbol]
  constructor
  · rintro ⟨h1, h2⟩
    exact ⟨h1, fun s t hs ht => h2 s hs t ht⟩
  · rintro ⟨h1, h2⟩
    exact ⟨h1, fun s hs t ht => h2 s t hs ht⟩

/-- C5: from the state at program start, `useries_can_handle` accepts an
expression exactly when it has no symbolic-constant node and no node of
another class, every numeric in it (the overall coefficients of sums and
products included) is an exact integer or rational, every function in it is
one of the twelve listed ones, and all its symbols are equal. So an
expression with two different symbols, or with an inexact numeric, is
rejected. -/
theorem useries_can_handle_iff (e : ex) :
    ((useries_can_handle e .initial).1 = true ↔
      (∀ n ∈ e.nodes, (∀ c, n ≠ .constant c) ∧ (∀ t, n ≠ .other t))
      ∧ (∀ v, ex.numeric v ∈ e.nodes → v.is_mpz = true ∨ v.is_mpq = true)
      ∧ (∀ serial arg, ex.function serial arg ∈ e.nodes → serial ∈ whitelist)
      ∧ (∀ s t, ex.symbol s ∈ e.nodes → ex.symbol t ∈ e.nodes → s = t))
    ∧ (∀ s t, ex.symbol s ∈ e.nodes → ex.symbol t ∈ e.nodes → s ≠ t →
        (useries_can_handle e .initial).1 = false)
    ∧ (∀ d, ex.numeric (.inexact d) ∈ e.nodes → (useries_can_handle e .initial).1 = false) := by
  have key := useries_can_handle_initial e
  rw [all_node_ok_iff] at key
  refine ⟨by rw [key]; tauto, fun s t hs ht hne => ?_, fun d hd => ?_⟩
  · cases hc : (useries_can_handle e .initial).1 with
    | false => rfl
    | true => exact absurd (((key.1 hc).2) s t hs ht) hne
  · cases hc : (useries_can_handle e .initial).1 with
    | false => rfl
    | true =>
        have := (key.1 hc).1.2.1 _ hd
        simp [numeric.is_mpz, numeric.is_mpq] at this

/-! ## C6: a non-numeric exponent -/

/-- C6 (what the code does instead): for a non-numeric exponent and a base
whose series `B` has constant term zero, `fmpq_poly_log_series` is called on
`B` without a test, and Flint aborts; the result is not `flint_error`. -/
theorem power_nonnumeric_exponent_aborts (bk : Backend) (base exponent : ex) (order : Nat)
    (B : fmpq_poly_t) (hexp : exponent.to_numeric = none) (_horder : 1 ≤ order)
    (hB : (ex_useries bk base order).out = .ok B) (hc : fmpq_poly_get_coeff B 0 = 0) :
    (ex_useries bk (.power base exponent) order).out = .error .flint_abort
    ∧ (ex_useries bk (.power base exponent) order).calls
        = (ex_useries bk base order).calls ++ [.series .log_series B order] := by
  simp [ex_useries, power_useries, Run.andThen, hB, hexp, flint_series, Prim.in_domain, hc]

/-- Witness of C6: `x ^ x` at order 3. -/
theorem power_nonnumeric_exponent_aborts_witness :
    (ex_useries flint (.symbol ⟨0⟩) 3).out = .ok [0, 1]
    ∧ (ex_useries flint (.power (.symbol ⟨0⟩) (.symbol ⟨0⟩)) 3).out = .error .flint_abort
    ∧ (ex_useries flint (.power (.symbol ⟨0⟩) (.symbol ⟨0⟩)) 3).calls
        = [.series .log_series [0, 1] 3] :=
  ⟨rfl, (power_nonnumeric_exponent_aborts flint (.symbol ⟨0⟩) (.symbol ⟨0⟩) 3 [0, 1] rfl
      (by decide) rfl rfl).1,
   (power_nonnumeric_exponent_aborts flint (.symbol ⟨0⟩) (.symbol ⟨0⟩) 3 [0, 1] rfl
      (by decide) rfl rfl).2⟩

/-! ## C7: a rational exponent with denominator other than two -/

/-- C7 (what the code does instead): for a rational exponent whose denominator
is not two and a base whose series `B` has a constant term other than one,
`fmpq_poly_log_series` is called on `B` without a test, and Flint aborts; the
result is not `flint_error`. -/
theorem power_rational_exponent_aborts (bk : Backend) (base : ex) (order : Nat)
    (B : fmpq_poly_t) (q : ℚ) (hq : q.den ≠ 2) (_horder : 1 ≤ order)
    (hB : (ex_useries bk base order).out = .ok B) (hc : fmpq_poly_get_coeff B 0 ≠ 1) :
    (ex_useries bk (.power base (.numeric (.mpq q))) order).out = .error .flint_abort
    ∧ (ex_useries bk (.power base (.numeric (.mpq q))) order).calls
        = (ex_useries bk base order).calls ++ [.series .log_series B order] := by
  have hq' : ¬ ((q.den : ℤ) = 2) := by exact_mod_cast hq
  simp [ex_useries, power_useries, Run.andThen, hB, ex.to_numeric, numeric.is_mpq,
    numeric.denom, numeric.value, hq', flint_series, Prim.in_domain, hc]

/-- Witness of C7: `(x + 8) ^ (1/3)` at order 3. -/
theorem power_rational_exponent_aborts_witness :
    (ex_useries flint (.add [.symbol ⟨0⟩] (.mpz 8)) 3).out = .ok [8, 1]
    ∧ (ex_useries flint (.power (.add [.symbol ⟨0⟩] (.mpz 8)) (.numeric (.mpq (1 / 3)))) 3).out
        = .error .flint_abort
    ∧ (ex_useries flint (.power (.add [.symbol ⟨0⟩] (.mpz 8)) (.numeric (.mpq (1 / 3)))) 3).calls
        = [.series .log_series [8, 1] 3] := by
  have hB : ex_useries flint (.add [.symbol ⟨0⟩] (.mpz 8)) 3 = ⟨[], .ok [8, 1]⟩ := by
    simpa using add_symbol_useries flint ⟨0⟩ 8 3 (by decide)
  have h := power_rational_exponent_aborts flint (.add [.symbol ⟨0⟩] (.mpz 8)) 3 [8, 1] (1 / 3)
    (by norm_num) (by decide) (by rw [hB]) (by norm_num [fmpq_poly_get_coeff])
  rw [hB] at h
  exact ⟨by rw [hB], h.1, by simpa using h.2⟩

/-! ## C8: the square root -/

theorem power_sqrt_out (bk : Backend) (base : ex) (N : Nat) (B : fmpq_poly_t)
    (hB : (ex_useries bk base N).out = .ok B) (hne : fmpq_poly_get_coeff B 0 ≠ 0)
    (hnum : IsSquare (fmpq_poly_get_coeff B 0).num)
    (hden : IsSquare ((fmpq_poly_get_coeff B 0).den : ℤ))
    (hs1 : fmpz_readonly_copies (mpz_sqrt (fmpq_poly_get_coeff B 0).num) = true)
    (hs2 : fmpz_readonly_copies (mpz_sqrt ((fmpq_poly_get_coeff B 0).den : ℤ)) = true) :
    (ex_useries bk base.sqrt N).out = .ok (fmpq_poly_pow (fmpq_poly_scalar_mul
      (bk .sqrt_series (fmpq_poly_scalar_div B (fmpq_poly_get_coeff B 0)) N)
      ((mpz_sqrt (fmpq_poly_get_coeff B 0).num : ℚ)
        / (mpz_sqrt ((fmpq_poly_get_coeff B 0).den : ℤ) : ℚ))) 1) := by
  have hden2 : (((1 : ℚ) / 2).den : ℤ) = 2 := by norm_num
  have hnum1 : ((1 : ℚ) / 2).num = 1 := by norm_num
  have hp1 := (mpz_perfect_square_p_iff _).2 hnum
  have hp2 := (mpz_perfect_square_p_iff _).2 hden
  have hdom : fmpq_poly_get_coeff (fmpq_poly_scalar_div B (fmpq_poly_get_coeff B 0)) 0 = 1 := by
    rw [get_coeff_scalar_div, div_self hne]
  simp only [ex.sqrt, ex_useries, power_useries, Run.bind_eq, Run.andThen, hB, ex.to_numeric,
    numeric.is_mpq, numeric.denom, numeric.numer, numeric.value, hden2, hnum1, hp1, hp2,
    fmpq_poly_scalar_div_fmpq, hne, flint_series, Prim.in_domain, hdom, Run.pure_eq, Run.ret,
    if_true, if_false, Bool.not_true, Bool.or_self, Bool.false_eq_true, decide_True,
    zero_lt_one, Int.toNat_one, fmpq_readonly_after_clear, hs1, hs2, Bool.and_self,
    fmpq_poly_scalar_mul_fmpq]

/-- When the constant term passes the perfect-square test and one of the two
square roots is above `COEFF_MAX`, the composition of `base ^ (1/2)` reads
the freed limbs through `cc`. -/
theorem power_sqrt_use_after_free (bk : Backend) (base : ex) (N : Nat) (B : fmpq_poly_t)
    (hB : (ex_useries bk base N).out = .ok B) (hne : fmpq_poly_get_coeff B 0 ≠ 0)
    (hnum : IsSquare (fmpq_poly_get_coeff B 0).num)
    (hden : IsSquare ((fmpq_poly_get_coeff B 0).den : ℤ))
    (hbig : (fmpz_readonly_copies (mpz_sqrt (fmpq_poly_get_coeff B 0).num)
      && fmpz_readonly_copies (mpz_sqrt ((fmpq_poly_get_coeff B 0).den : ℤ))) = false) :
    (ex_useries bk base.sqrt N).out = .error .use_after_free := by
  have hden2 : (((1 : ℚ) / 2).den : ℤ) = 2 := by norm_num
  have hnum1 : ((1 : ℚ) / 2).num = 1 := by norm_num
  have hp1 := (mpz_perfect_square_p_iff _).2 hnum
  have hp2 := (mpz_perfect_square_p_iff _).2 hden
  have hdom : fmpq_poly_get_coeff (fmpq_poly_scalar_div B (fmpq_poly_get_coeff B 0)) 0 = 1 := by
    rw [get_coeff_scalar_div, div_self hne]
  simp only [ex.sqrt, ex_useries, power_useries, Run.bind_eq, Run.andThen, hB, ex.to_numeric,
    numeric.is_mpq, numeric.denom, numeric.numer, numeric.value, hden2, hnum1, hp1, hp2,
    fmpq_poly_scalar_div_fmpq, hne, flint_series, Prim.in_domain, hdom, Run.pure_eq, Run.ret,
    if_true, if_false, Bool.not_true, Bool.or_self, Bool.false_eq_true, decide_True,
    fmpq_readonly_after_clear, hbig, fmpq_poly_scalar_mul_fmpq, Run.throw]

theorem numeric_big_useries (bk : Backend) (N : Nat) :
    (ex_useries bk (.numeric (.mpz (2 ^ 124))) N).out = .ok [((2 ^ 124 : ℤ) : ℚ)] := by
  have h : ((2 ^ 124 : ℤ) : ℚ) ≠ 0 := by norm_num
  simp only [ex_useries, numeric_useries, Run.pure_eq, Run.ret, fmpq_poly_set_fmpq, normalise,
    h, and_false, if_false]

theorem mpz_sqrt_big : mpz_sqrt (2 ^ 124) = 2 ^ 62 := by
  have h := Int.sqrt_eq (2 ^ 62)
  rw [mpz_sqrt, show (2 : ℤ) ^ 124 = 2 ^ 62 * 2 ^ 62 by norm_num, h]
  norm_num

/-- C8 (what holds, and where the code departs): for a base whose series `B`
at order `N ≥ 1` has a positive constant term `c0` with square numerator and
denominator whose square roots are at most `COEFF_MAX`, and a backend whose
square-root primitive returns, on `B / c0`, a series with constant term one
whose square agrees with `B / c0` below degree `N`: the composition of
`base ^ (1/2)` succeeds with a series `R` whose constant term is the
non-negative square root of `c0` and whose square agrees with `B` below
degree `N`. For a larger square root the code reads freed memory: `cc`
borrows the limbs of `cnum`, which is cleared before `cc` is used; so it is
for the constant `2 ^ 124`, whose square root is `2 ^ 62`. -/
theorem power_sqrt_correct (bk : Backend) (base : ex) (N : Nat) (B : fmpq_poly_t)
    (_hN : 1 ≤ N) (hB : (ex_useries bk base N).out = .ok B)
    (hpos : 0 < fmpq_poly_get_coeff B 0)
    (hnum : IsSquare (fmpq_poly_get_coeff B 0).num)
    (hden : IsSquare ((fmpq_poly_get_coeff B 0).den : ℤ))
    (hs1 : fmpz_readonly_copies (mpz_sqrt (fmpq_poly_get_coeff B 0).num) = true)
    (hs2 : fmpz_readonly_copies (mpz_sqrt ((fmpq_poly_get_coeff B 0).den : ℤ)) = true)
    (hone : fmpq_poly_get_coeff
      (bk .sqrt_series (fmpq_poly_scalar_div B (fmpq_poly_get_coeff B 0)) N) 0 = 1)
    (hsqrt : ∀ i < N,
      fmpq_poly_get_coeff (fmpq_poly_mul
        (bk .sqrt_series (fmpq_poly_scalar_div B (fmpq_poly_get_coeff B 0)) N)
        (bk .sqrt_series (fmpq_poly_scalar_div B (fmpq_poly_get_coeff B 0)) N)) i
      = fmpq_poly_get_coeff (fmpq_poly_scalar_div B (fmpq_poly_get_coeff B 0)) i) :
    (∃ R, (ex_useries bk base.sqrt N).out = .ok R
      ∧ 0 ≤ fmpq_poly_get_coeff R 0
      ∧ fmpq_poly_get_coeff R 0 * fmpq_poly_get_coeff R 0 = fmpq_poly_get_coeff B 0
      ∧ ∀ i < N, fmpq_poly_get_coeff (fmpq_poly_mul R R) i = fmpq_poly_get_coeff B i)
    ∧ (ex_useries bk (.numeric (.mpz (2 ^ 124))) N).out = .ok [((2 ^ 124 : ℤ) : ℚ)]
    ∧ (ex_useries bk (ex.sqrt (.numeric (.mpz (2 ^ 124)))) N).out = .error .use_after_free := by
  have hne : fmpq_poly_get_coeff B 0 ≠ 0 := ne_of_gt hpos
  refine ⟨?_, numeric_big_useries bk N, ?_⟩
  swap
  · have hc : fmpq_poly_get_coeff [((2 ^ 124 : ℤ) : ℚ)] 0 = ((2 ^ 124 : ℤ) : ℚ) := by
      simp [fmpq_poly_get_coeff]
    refine power_sqrt_use_after_free bk _ N _ (numeric_big_useries bk N) ?_ ?_ ?_ ?_
    · rw [hc]
      norm_num
    · rw [hc, Rat.num_intCast]
      exact ⟨2 ^ 62, by norm_num⟩
    · rw [hc, Rat.den_intCast]
      exact ⟨1, by norm_num⟩
    · rw [hc, Rat.num_intCast, mpz_sqrt_big]
      simp [fmpz_readonly_copies, COEFF_MAX]
  refine ⟨_, power_sqrt_out bk base N B hB hne hnum hden hs1 hs2, ?_, ?_, ?_⟩
  · rw [← coeff_to_polynomial]
    simp only [to_polynomial_pow, to_polynomial_scalar_mul, pow_one, coeff_C_mul,
      coeff_to_polynomial, hone, mul_one]
    exact sqrt_ratio_nonneg _
  · rw [← coeff_to_polynomial]
    simp only [to_polynomial_pow, to_polynomial_scalar_mul, pow_one, coeff_C_mul,
      coeff_to_polynomial, hone, mul_one]
    exact sqrt_ratio_sq _ hnum hden
  · intro i hi
    have h := hsqrt i hi
    rw [get_coeff_mul, get_coeff_scalar_div] at h
    rw [get_coeff_mul]
    simp only [to_polynomial_pow, to_polynomial_scalar_mul, pow_one]
    rw [show ∀ (a b : ℚ[X]), a * b * (a * b) = (a * a) * (b * b) from fun a b => by ring,
      ← C_mul, coeff_C_mul, h, sqrt_ratio_sq _ hnum hden]
    field_simp

/-- Witness of C8: `sqrt(x + 4)` at order 3 is `[2, 1/4, -1/64]` with the
reference backend. -/
theorem power_sqrt_correct_witness :
    (ex_useries flint (.add [.symbol ⟨0⟩] (.mpz 4)) 3).out = .ok [4, 1]
    ∧ (ex_useries flint (ex.sqrt (.add [.symbol ⟨0⟩] (.mpz 4))) 3).out
        = .ok [2, 1 / 4, -1 / 64]
    ∧ (∃ R, (ex_useries flint (ex.sqrt (.add [.symbol ⟨0⟩] (.mpz 4))) 3).out = .ok R
      ∧ 0 ≤ fmpq_poly_get_coeff R 0
      ∧ fmpq_poly_get_coeff R 0 * fmpq_poly_get_coeff R 0 = fmpq_poly_get_coeff [4, 1] 0
      ∧ ∀ i < 3, fmpq_poly_get_coeff (fmpq_poly_mul R R) i = fmpq_poly_get_coeff [4, 1] i)
    ∧ (ex_useries flint (ex.sqrt (.numeric (.mpz (2 ^ 124)))) 3).out
        = .error .use_after_free := by
  have hB : ex_useries flint (.add [.symbol ⟨0⟩] (.mpz 4)) 3 = ⟨[], .ok [4, 1]⟩ := by
    simpa using add_symbol_useries flint ⟨0⟩ 4 3 (by decide)
  have hc : fmpq_poly_get_coeff [4, 1] 0 = 4 := by simp [fmpq_poly_get_coeff]
  have hdiv : fmpq_poly_scalar_div [4, 1] 4 = [1, 1 / 4] := by
    simp [fmpq_poly_scalar_div, normalise]
  have hnum : (4 : ℚ).num = 2 * 2 := by norm_num
  have hden : ((4 : ℚ).den : ℤ) = 1 * 1 := by norm_num
  have hs4 : Int.sqrt 4 = 2 := by norm_num
  have hs1 : Int.sqrt 1 = 1 := by norm_num
  have hnum4 : (4 : ℚ).num = 4 := by norm_num
  have hden4 : ((4 : ℚ).den : ℤ) = 1 := by norm_num
  have hsm1 : fmpz_readonly_copies (mpz_sqrt (fmpq_poly_get_coeff [4, 1] 0).num) = true := by
    rw [hc, hnum4, mpz_sqrt, hs4]
    simp [fmpz_readonly_copies, COEFF_MAX]
  have hsm2 : fmpz_readonly_copies (mpz_sqrt ((fmpq_poly_get_coeff [4, 1] 0).den : ℤ))
      = true := by
    rw [hc, hden4, mpz_sqrt, hs1]
    simp [fmpz_readonly_copies, COEFF_MAX]
  have h := power_sqrt_correct flint (.add [.symbol ⟨0⟩] (.mpz 4)) 3 [4, 1] (by decide)
    (by rw [hB]) (by rw [hc]; norm_num) (by rw [hc]; exact ⟨2, hnum⟩)
    (by rw [hc]; exact ⟨1, hden⟩) hsm1 hsm2
    (by rw [hc, hdiv, ref_sqrt_eval]; simp [fmpq_poly_get_coeff])
    (by
      rw [hc, hdiv, ref_sqrt_eval]
      intro i hi
      rw [get_coeff_mul_coeffs]
      interval_cases i <;> simp [mul_coeffs, add_coeffs, fmpq_poly_get_coeff] <;> norm_num)
  refine ⟨by rw [hB], ?_, h.1, h.2.2⟩
  rw [power_sqrt_out flint (.add [.symbol ⟨0⟩] (.mpz 4)) 3 [4, 1] (by rw [hB])
    (by rw [hc]; norm_num) (by rw [hc]; exact ⟨2, hnum⟩) (by rw [hc]; exact ⟨1, hden⟩)
    hsm1 hsm2,
    hc, hdiv, ref_sqrt_eval, hnum4, hden4, mpz_sqrt, mpz_sqrt, hs4, hs1]
  simp [fmpq_poly_scalar_mul, fmpq_poly_pow, fmpq_poly_mul, mul_coeffs, add_coeffs, normalise]
  norm_num

/-! ## C9: a radicand that is no perfect square -/

/-- C9: for an exponent `n/2` with `n` odd and a base whose series at
`order ≥ 1` has a constant term whose numerator or denominator is no perfect
square (in particular a negative constant term), the composition throws
`flint_error` and makes no backend call beyond those of the base: neither
the scalar division nor the square root is invoked. -/
theorem power_half_integer_not_square (bk : Backend) (base : ex) (order : Nat)
    (B : fmpq_poly_t) (n : ℤ) (hn : Odd n) (_horder : 1 ≤ order)
    (hB : (ex_useries bk base order).out = .ok B)
    (hsq : ¬ IsSquare (fmpq_poly_get_coeff B 0).num
      ∨ ¬ IsSquare ((fmpq_poly_get_coeff B 0).den : ℤ) ∨ fmpq_poly_get_coeff B 0 < 0) :
    (ex_useries bk (.power base (.numeric (.mpq (n / 2)))) order).out = .error .flint_error
    ∧ (ex_useries bk (.power base (.numeric (.mpq (n / 2)))) order).calls
        = (ex_useries bk base order).calls := by
  have hchk : (!(mpz_perfect_square_p (fmpq_poly_get_coeff B 0).num)
      || !(mpz_perfect_square_p ((fmpq_poly_get_coeff B 0).den : ℤ))) = true := by
    rcases hsq with h | h | h
    · have : mpz_perfect_square_p (fmpq_poly_get_coeff B 0).num = false := by
        rw [← Bool.not_eq_true, mpz_perfect_square_p_iff]
        exact h
      simp [this]
    · have : mpz_perfect_square_p ((fmpq_poly_get_coeff B 0).den : ℤ) = false := by
        rw [← Bool.not_eq_true, mpz_perfect_square_p_iff]
        exact h
      simp [this]
    · have : mpz_perfect_square_p (fmpq_poly_get_coeff B 0).num = false := by
        rw [← Bool.not_eq_true, mpz_perfect_square_p_iff]
        intro hs
        have h1 : 0 ≤ (fmpq_poly_get_coeff B 0).num := by
          obtain ⟨r, hr⟩ := hs
          rw [hr]
          exact mul_self_nonneg r
        have h2 : (fmpq_poly_get_coeff B 0).num < 0 := Rat.num_neg.2 h
        omega
      simp [this]
  simp only [ex_useries, power_useries, Run.bind_eq, Run.andThen, hB, ex.to_numeric,
    numeric.is_mpq, numeric.denom, numeric.value, half_integer_den n hn, if_true, hchk,
    Run.throw, List.append_nil, and_self]

/-- Witness of C9: `(x + 2) ^ (1/2)` at order 3. -/
theorem power_half_integer_not_square_witness :
    Odd (1 : ℤ) ∧ (ex_useries flint (.add [.symbol ⟨0⟩] (.mpz 2)) 3).out = .ok [2, 1]
    ∧ ¬ IsSquare (fmpq_poly_get_coeff [2, 1] 0).num
    ∧ (ex_useries flint (.power (.add [.symbol ⟨0⟩] (.mpz 2))
        (.numeric (.mpq ((1 : ℤ) / 2)))) 3).out = .error .flint_error := by
  have hB : ex_useries flint (.add [.symbol ⟨0⟩] (.mpz 2)) 3 = ⟨[], .ok [2, 1]⟩ := by
    simpa using add_symbol_useries flint ⟨0⟩ 2 3 (by decide)
  have hsq : ¬ IsSquare (fmpq_poly_get_coeff [2, 1] 0).num := by
    have h2 : (fmpq_poly_get_coeff [2, 1] 0).num = 2 := by norm_num [fmpq_poly_get_coeff]
    rw [h2]
    rintro ⟨r, hr⟩
    have h1 : r.natAbs * r.natAbs = 2 := by
      have := congrArg Int.natAbs hr
      simpa [Int.natAbs_mul] using this.symm
    have h3 : r.natAbs ≤ 2 := by nlinarith
    interval_cases r.natAbs <;> omega
  exact ⟨odd_one, by rw [hB], hsq,
    (power_half_integer_not_square flint (.add [.symbol ⟨0⟩] (.mpz 2)) 3 [2, 1] 1 odd_one
      (by decide) (by rw [hB]) (Or.inl hsq)).1⟩

/-! ## C10: a negative integer exponent -/

theorem seq_useries_eq_map (bk : Backend) (seq : List ex) (order : Nat) :
    seq_useries bk seq order = seq.map (fun t => ex_useries bk t order) := by
  induction seq with
  | nil => simp [seq_useries]
  | cons t ts ih => simp [seq_useries, ih]

theorem Run.value_of_ok (r : Run fmpq_poly_t) (F : fmpq_poly_t) (h : r.out = .ok F) :
    r.value = F := by
  simp [Run.value, h]

theorem seq_useries_of_forall₂ (bk : Backend) (order : Nat) (seq : List ex)
    (Fs : List fmpq_poly_t)
    (h : List.Forall₂ (fun t F => (ex_useries bk t order).out = .ok F) seq Fs) :
    (∀ r ∈ seq_useries bk seq order, ∃ F, r.out = .ok F)
    ∧ (seq_useries bk seq order).map Run.value = Fs := by
  induction h with
  | nil => simp [seq_useries]
  | cons hd _ ih =>
      refine ⟨?_, ?_⟩
      · intro r hr
        simp only [seq_useries, List.mem_cons] at hr
        rcases hr with rfl | hr
        · exact ⟨_, hd⟩
        · exact ih.1 r hr
      · simp [seq_useries, Run.value_of_ok _ _ hd, ih.2]

theorem add_useries_loop_ok (rs : List (Run fmpq_poly_t)) (fp : fmpq_poly_t)
    (h : ∀ r ∈ rs, ∃ F, r.out = .ok F) :
    (add_useries_loop rs fp).out = .ok ((rs.map Run.value).foldl fmpq_poly_add fp) := by
  induction rs generalizing fp with
  | nil => simp [add_useries_loop, Run.ret]
  | cons r rs ih =>
      obtain ⟨F, hF⟩ := h r (List.mem_cons_self _ _)
      have := ih (fmpq_poly_add fp F) (fun r' hr' => h r' (List.mem_cons_of_mem _ hr'))
      simp [add_useries_loop, Run.andThen, hF, this, Run.value_of_ok _ _ hF]

theorem mul_useries_loop_ok (order : Nat) (rs : List (Run fmpq_poly_t)) (fp : fmpq_poly_t)
    (h : ∀ r ∈ rs, ∃ F, r.out = .ok F) :
    (mul_useries_loop order rs fp).out
      = .ok ((rs.map Run.value).foldl (fun acc F => fmpq_poly_mullow acc F (order + 2)) fp) := by
  induction rs generalizing fp with
  | nil => simp [mul_useries_loop, Run.ret]
  | cons r rs ih =>
      obtain ⟨F, hF⟩ := h r (List.mem_cons_self _ _)
      have := ih (fmpq_poly_mullow fp F (order + 2))
        (fun r' hr' => h r' (List.mem_cons_of_mem _ hr'))
      simp [mul_useries_loop, Run.andThen, hF, this, Run.value_of_ok _ _ hF]

theorem normalise_eq_nil_of_coeff (q : fmpq_poly_t) (h : ∀ i, fmpq_poly_get_coeff q i = 0) :
    normalise q = [] := by
  induction q with
  | nil => rfl
  | cons a q ih =>
      have h0 : a = 0 := by simpa using h 0
      have hq : normalise q = [] := ih (fun i => by simpa using h (i + 1))
      simp [normalise, h0, hq]

theorem normalise_eq_of_coeff (p q : fmpq_poly_t)
    (h : ∀ i, fmpq_poly_get_coeff p i = fmpq_poly_get_coeff q i) :
    normalise p = normalise q := by
  induction p generalizing q with
  | nil =>
      rw [normalise_eq_nil_of_coeff q (fun i => by rw [← h i]; simp)]
      rfl
  | cons a p ih =>
      cases q with
      | nil =>
          rw [normalise_eq_nil_of_coeff (a :: p) (fun i => by rw [h i]; simp)]
          rfl
      | cons b q =>
          have h0 : a = b := by simpa using h 0
          have hq : normalise p = normalise q := ih q (fun i => by simpa using h (i + 1))
          simp [normalise, h0, hq]

theorem normalise_idem (p : fmpq_poly_t) : normalise (normalise p) = normalise p :=
  normalise_eq_of_coeff _ _ (get_coeff_normalise p)

theorem eq_of_coeff_of_normal (p q : fmpq_poly_t) (hp : normalise p = p) (hq : normalise q = q)
    (h : ∀ i, fmpq_poly_get_coeff p i = fmpq_poly_get_coeff q i) : p = q := by
  rw [← hp, ← hq]
  exact normalise_eq_of_coeff p q h

theorem get_coeff_add_coeffs (p q : fmpq_poly_t) (i : Nat) :
    fmpq_poly_get_coeff (add_coeffs p q) i = fmpq_poly_get_coeff p i + fmpq_poly_get_coeff q i := by
  rw [← coeff_to_polynomial, to_polynomial_add_coeffs, Polynomial.coeff_add,
    coeff_to_polynomial, coeff_to_polynomial]

theorem get_coeff_add (p q : fmpq_poly_t) (i : Nat) :
    fmpq_poly_get_coeff (fmpq_poly_add p q) i = fmpq_poly_get_coeff p i + fmpq_poly_get_coeff q i := by
  simp [fmpq_poly_add, get_coeff_add_coeffs]

theorem get_coeff_foldl_add (Fs : List fmpq_poly_t) (fp : fmpq_poly_t) (i : Nat) :
    fmpq_poly_get_coeff (Fs.foldl fmpq_poly_add fp) i
      = fmpq_poly_get_coeff fp i + (Fs.map (fun F => fmpq_poly_get_coeff F i)).sum := by
  induction Fs generalizing fp with
  | nil => simp
  | cons F Fs ih => simp [ih, get_coeff_add, add_assoc]

theorem normal_foldl_add (Fs : List fmpq_poly_t) (fp : fmpq_poly_t) (h : normalise fp = fp) :
    normalise (Fs.foldl fmpq_poly_add fp) = Fs.foldl fmpq_poly_add fp := by
  induction Fs generalizing fp with
  | nil => simpa using h
  | cons F Fs ih => exact ih _ (by simp [fmpq_poly_add, normalise_idem])

theorem get_coeff_set_fmpq (c : ℚ) (i : Nat) :
    fmpq_poly_get_coeff (fmpq_poly_set_fmpq c) i = if i = 0 then c else 0 := by
  rcases i with _ | i <;> simp [fmpq_poly_set_fmpq]

theorem get_coeff_scalar_mul (p : fmpq_poly_t) (c : ℚ) (i : Nat) :
    fmpq_poly_get_coeff (fmpq_poly_scalar_mul p c) i = c * fmpq_poly_get_coeff p i := by
  rw [← coeff_to_polynomial, to_polynomial_scalar_mul, coeff_C_mul, coeff_to_polynomial]

theorem to_polynomial_mullow_dvd (p q : fmpq_poly_t) (n : Nat) :
    (X : ℚ[X]) ^ n ∣ to_polynomial (fmpq_poly_mullow p q n) - to_polynomial p * to_polynomial q := by
  rw [X_pow_dvd_iff]
  intro d hd
  rw [coeff_sub, coeff_to_polynomial, get_coeff_mullow, if_pos hd, sub_self]

theorem to_polynomial_foldl_mullow_dvd (Fs : List fmpq_poly_t) (fp : fmpq_poly_t) (n : Nat) :
    (X : ℚ[X]) ^ n ∣ to_polynomial (Fs.foldl (fun acc F => fmpq_poly_mullow acc F n) fp)
      - to_polynomial fp * (Fs.map to_polynomial).prod := by
  induction Fs generalizing fp with
  | nil => simp
  | cons F Fs ih =>
      have h1 := ih (fmpq_poly_mullow fp F n)
      have h2 := (to_polynomial_mullow_dvd fp F n).mul_right (Fs.map to_polynomial).prod
      have := dvd_add h1 h2
      simp only [List.foldl_cons, List.map_cons, List.prod_cons]
      convert this using 1
      ring

theorem to_polynomial_poly_prod (Fs : List fmpq_poly_t) :
    to_polynomial (poly_prod Fs) = (Fs.map to_polynomial).prod := by
  induction Fs with
  | nil => simp [poly_prod, to_polynomial]
  | cons F Fs ih => simp [poly_prod, ih]

theorem to_polynomial_set_one : to_polynomial (fmpq_poly_set_fmpq 1) = 1 := by
  simp [fmpq_poly_set_fmpq, to_polynomial]

theorem get_coeff_foldl_mullow (Fs : List fmpq_poly_t) (n i : Nat) (hi : i < n) :
    fmpq_poly_get_coeff (Fs.foldl (fun acc F => fmpq_poly_mullow acc F n) (fmpq_poly_set_fmpq 1)) i
      = fmpq_poly_get_coeff (poly_prod Fs) i := by
  have h := to_polynomial_foldl_mullow_dvd Fs (fmpq_poly_set_fmpq 1) n
  rw [to_polynomial_set_one, one_mul, ← to_polynomial_poly_prod, X_pow_dvd_iff] at h
  have := h i hi
  rw [coeff_sub, sub_eq_zero, coeff_to_polynomial, coeff_to_polynomial] at this
  exact this

theorem get_coeff_mul_convolution (A B : fmpq_poly_t) (i : Nat) :
    fmpq_poly_get_coeff (fmpq_poly_mul A B) i
      = ∑ j in Finset.range (i + 1), fmpq_poly_get_coeff A j * fmpq_poly_get_coeff B (i - j) := by
  rw [get_coeff_mul, coeff_mul,
    Finset.Nat.sum_antidiagonal_eq_sum_range_succ
      (fun j k => (to_polynomial A).coeff j * (to_polynomial B).coeff k)]
  simp [coeff_to_polynomial]

/-! ## Sine and cosine of a symbol on the reference backend -/

theorem ref_sin_cos_eval :
    ref_sin_cos [0, 1] 4 = ([0, 1, 0, -1 / 6], [1, 0, -1 / 2]) := by
  simp [ref_sin_cos, trunc, integral, derivative, scale_up, scale_down, fmpq_poly_add,
    fmpq_poly_sub, fmpq_poly_scalar_mul, fmpq_poly_mullow, mul_coeffs, add_coeffs, normalise,
    Function.iterate_succ]
  norm_num

theorem sin_symbol_eval :
    (ex_useries flint (.function .sin_SERIAL (.symbol ⟨0⟩)) 4).out = .ok [0, 1, 0, -1 / 6] := by
  have h : flint .sin_series [0, 1] 4 = [0, 1, 0, -1 / 6] := by
    rw [flint, ref_sin_cos_eval]
  simp [ex_useries, function_useries, funcmap, sin_useries, symbol_useries,
    check_poly_ccoeff_zero, flint_series, Prim.in_domain, Run.andThen, Run.ret, h]

theorem cos_symbol_eval :
    (ex_useries flint (.function .cos_SERIAL (.symbol ⟨0⟩)) 4).out = .ok [1, 0, -1 / 2] := by
  have h : flint .cos_series [0, 1] 4 = [1, 0, -1 / 2] := by
    rw [flint, ref_sin_cos_eval]
  simp [ex_useries, function_useries, funcmap, cos_useries, symbol_useries,
    check_poly_ccoeff_zero, flint_series, Prim.in_domain, Run.andThen, Run.ret, h]

/-! ## C11: the series of a product -/

theorem mul_useries_out (rs : List (Run fmpq_poly_t)) (oc : numeric) (order : Nat)
    (hk : oc.is_mpz = true ∨ oc.is_mpq = true) (hall : ∀ r ∈ rs, ∃ F, r.out = .ok F) :
    ∃ R, (mul_useries rs oc order).out = .ok R
      ∧ ∀ i < order + 2, fmpq_poly_get_coeff R i
          = fmpq_poly_get_coeff (fmpq_poly_scalar_mul (poly_prod (rs.map Run.value)) oc.value) i := by
  have hloop := mul_useries_loop_ok order rs (fmpq_poly_set_fmpq 1) hall
  have hcoef := get_coeff_foldl_mullow (rs.map Run.value) (order + 2)
  by_cases h1 : oc.value = 1
  · refine ⟨(rs.map Run.value).foldl (fun acc F => fmpq_poly_mullow acc F (order + 2))
      (fmpq_poly_set_fmpq 1), ?_, fun i hi => ?_⟩
    · simp [mul_useries, Run.andThen, hloop, numeric.is_one, h1, Run.ret]
    · rw [hcoef i hi, get_coeff_scalar_mul, h1, one_mul]
  · cases oc with
    | mpz z =>
        refine ⟨fmpq_poly_scalar_mul ((rs.map Run.value).foldl
          (fun acc F => fmpq_poly_mullow acc F (order + 2)) (fmpq_poly_set_fmpq 1)) z, ?_,
          fun i hi => ?_⟩
        · simp only [numeric.value] at h1
          simp [mul_useries, Run.andThen, hloop, numeric.is_one, numeric.value, h1, Run.ret]
        · rw [get_coeff_scalar_mul, get_coeff_scalar_mul, hcoef i hi]
          rfl
    | mpq q =>
        refine ⟨fmpq_poly_scalar_mul ((rs.map Run.value).foldl
          (fun acc F => fmpq_poly_mullow acc F (order + 2)) (fmpq_poly_set_fmpq 1)) q, ?_,
          fun i hi => ?_⟩
        · simp only [numeric.value] at h1
          simp [mul_useries, Run.andThen, hloop, numeric.is_one, numeric.value, h1, Run.ret,
            numeric.as_mpq]
        · rw [get_coeff_scalar_mul, get_coeff_scalar_mul, hcoef i hi]
          rfl
    | inexact d => simp [numeric.is_mpz, numeric.is_mpq] at hk

/-- C11: for factors whose compositions at order `N ≥ 1` succeed with the
series `Fs` and an exact integer or rational overall coefficient `k`, the
composition of the product succeeds, and its coefficients below degree `N`
are those of `k` times the exact, untruncated product of the `Fs`; for two
factors and `k = 1` they are those of the convolution of the two series. -/
theorem mul_useries_product (bk : Backend) (factors : List ex) (oc : numeric) (N : Nat)
    (Fs : List fmpq_poly_t) (_hN : 1 ≤ N) (hk : oc.is_mpz = true ∨ oc.is_mpq = true)
    (hFs : List.Forall₂ (fun t F => (ex_useries bk t N).out = .ok F) factors Fs) :
    ∃ R, (ex_useries bk (.mul factors oc) N).out = .ok R
      ∧ (∀ i < N, fmpq_poly_get_coeff R i
          = fmpq_poly_get_coeff (fmpq_poly_scalar_mul (poly_prod Fs) oc.value) i)
      ∧ (∀ a b A B, (ex_useries bk a N).out = .ok A → (ex_useries bk b N).out = .ok B →
          ∃ S, (ex_useries bk (.mul [a, b] (.mpz 1)) N).out = .ok S
            ∧ ∀ i < N, fmpq_poly_get_coeff S i
                = ∑ j in Finset.range (i + 1),
                    fmpq_poly_get_coeff A j * fmpq_poly_get_coeff B (i - j)) := by
  obtain ⟨hall, hval⟩ := seq_useries_of_forall₂ bk N factors Fs hFs
  obtain ⟨R, hR, hcoef⟩ := mul_useries_out (seq_useries bk factors N) oc N hk hall
  refine ⟨R, by simpa [ex_useries] using hR, fun i hi => ?_, ?_⟩
  · rw [hcoef i (by omega), hval]
  · intro a b A B hA hB
    have hF2 : List.Forall₂ (fun t F => (ex_useries bk t N).out = .ok F) [a, b] [A, B] :=
      List.Forall₂.cons hA (List.Forall₂.cons hB List.Forall₂.nil)
    obtain ⟨hall2, hval2⟩ := seq_useries_of_forall₂ bk N [a, b] [A, B] hF2
    obtain ⟨S, hS, hcoefS⟩ := mul_useries_out (seq_useries bk [a, b] N) (.mpz 1) N
      (Or.inl rfl) hall2
    refine ⟨S, by simpa [ex_useries] using hS, fun i hi => ?_⟩
    rw [hcoefS i (by omega), hval2, get_coeff_scalar_mul, ← get_coeff_mul_convolution]
    simp [poly_prod, numeric.value, get_coeff_mul, to_polynomial]

/-- Witness of C11: `sin(x) * cos(x)` at order 4 has the first four
coefficients `[0, 1, 0, -2/3]` with the reference backend. -/
theorem mul_useries_product_witness :
    (ex_useries flint (.function .sin_SERIAL (.symbol ⟨0⟩)) 4).out = .ok [0, 1, 0, -1 / 6]
    ∧ (ex_useries flint (.function .cos_SERIAL (.symbol ⟨0⟩)) 4).out = .ok [1, 0, -1 / 2]
    ∧ ∃ R, (ex_useries flint (.mul [.function .sin_SERIAL (.symbol ⟨0⟩),
          .function .cos_SERIAL (.symbol ⟨0⟩)] (.mpz 1)) 4).out = .ok R
      ∧ fmpq_poly_get_coeff R 0 = 0 ∧ fmpq_poly_get_coeff R 1 = 1
      ∧ fmpq_poly_get_coeff R 2 = 0 ∧ fmpq_poly_get_coeff R 3 = -2 / 3 := by
  obtain ⟨R, hR, hcoef, _⟩ := mul_useries_product flint
    [.function .sin_SERIAL (.symbol ⟨0⟩), .function .cos_SERIAL (.symbol ⟨0⟩)] (.mpz 1) 4
    [[0, 1, 0, -1 / 6], [1, 0, -1 / 2]] (by decide) (Or.inl rfl)
    (List.Forall₂.cons sin_symbol_eval (List.Forall₂.cons cos_symbol_eval List.Forall₂.nil))
  have hprod : ∀ i, fmpq_poly_get_coeff
      (fmpq_poly_scalar_mul (poly_prod [[0, 1, 0, -1 / 6], [1, 0, -1 / 2]])
        (numeric.mpz 1).value) i
      = fmpq_poly_get_coeff (mul_coeffs [0, 1, 0, -1 / 6] [1, 0, -1 / 2]) i := by
    intro i
    rw [get_coeff_scalar_mul, ← coeff_to_polynomial, ← coeff_to_polynomial,
      to_polynomial_poly_prod, to_polynomial_mul_coeffs]
    simp [numeric.value]
  refine ⟨sin_symbol_eval, cos_symbol_eval, R, hR, ?_, ?_, ?_, ?_⟩
  · rw [hcoef 0 (by decide), hprod]
    simp [mul_coeffs, add_coeffs, fmpq_poly_get_coeff]
  · rw [hcoef 1 (by decide), hprod]
    simp [mul_coeffs, add_coeffs, fmpq_poly_get_coeff]
  · rw [hcoef 2 (by decide), hprod]
    simp [mul_coeffs, add_coeffs, fmpq_poly_get_coeff]
  · rw [hcoef 3 (by decide), hprod]
    simp [mul_coeffs, add_coeffs, fmpq_poly_get_coeff]
    norm_num

/-! ## C12: the series of a sum -/

theorem add_useries_out (rs : List (Run fmpq_poly_t)) (oc : numeric) (order : Nat)
    (hk : oc.is_mpz = true ∨ oc.is_mpq = true) (hall : ∀ r ∈ rs, ∃ F, r.out = .ok F) :
    ∃ R, (add_useries rs oc order).out = .ok R ∧ normalise R = R
      ∧ ∀ i, fmpq_poly_get_coeff R i
          = ((rs.map Run.value).map (fun F => fmpq_poly_get_coeff F i)).sum
            + if i = 0 then oc.value else 0 := by
  have hloop := add_useries_loop_ok rs (fmpq_poly_set_fmpq 0) hall
  have hn0 : normalise (fmpq_poly_set_fmpq 0) = fmpq_poly_set_fmpq 0 := by
    simp [fmpq_poly_set_fmpq, normalise_idem]
  have hnorm := normal_foldl_add (rs.map Run.value) _ hn0
  have hcoef := get_coeff_foldl_add (rs.map Run.value) (fmpq_poly_set_fmpq 0)
  by_cases hz : oc.value = 0
  · refine ⟨(rs.map Run.value).foldl fmpq_poly_add (fmpq_poly_set_fmpq 0), ?_, hnorm,
      fun i => ?_⟩
    · simp [add_useries, Run.andThen, hloop, numeric.is_zero, hz, Run.ret]
    · rw [hcoef, get_coeff_set_fmpq, hz]
      simp
  · cases oc with
    | mpz z =>
        refine ⟨fmpq_poly_add ((rs.map Run.value).foldl fmpq_poly_add (fmpq_poly_set_fmpq 0))
          (fmpq_poly_set_fmpq z), ?_, ?_, fun i => ?_⟩
        · simp only [numeric.value] at hz
          simp [add_useries, Run.andThen, hloop, numeric.is_zero, numeric.value, hz, Run.ret]
        · simp [fmpq_poly_add, normalise_idem]
        · rw [get_coeff_add, hcoef, get_coeff_set_fmpq, get_coeff_set_fmpq]
          simp [numeric.value]
    | mpq q =>
        refine ⟨fmpq_poly_add ((rs.map Run.value).foldl fmpq_poly_add (fmpq_poly_set_fmpq 0))
          (fmpq_poly_set_fmpq q), ?_, ?_, fun i => ?_⟩
        · simp only [numeric.value] at hz
          simp [add_useries, Run.andThen, hloop, numeric.is_zero, numeric.value, hz, Run.ret,
            numeric.as_mpq]
        · simp [fmpq_poly_add, normalise_idem]
        · rw [get_coeff_add, hcoef, get_coeff_set_fmpq, get_coeff_set_fmpq]
          simp [numeric.value]
    | inexact d => simp [numeric.is_mpz, numeric.is_mpq] at hk

theorem map_value_seq_useries (bk : Backend) (order : Nat) (seq : List ex) (i : Nat) :
    ((seq_useries bk seq order).map Run.value).map (fun F => fmpq_poly_get_coeff F i)
      = seq.map (fun t => fmpq_poly_get_coeff (ex_useries bk t order).value i) := by
  simp [seq_useries_eq_map]

/-- C12: for terms whose compositions at order `N ≥ 1` succeed with the
series `Fs` and an exact integer or rational overall coefficient `k`, the
composition of the sum succeeds with the series whose coefficient of degree
`i` is the sum of the coefficients of degree `i` of the `Fs`, plus `k` at
degree zero only; every permutation of the terms gives the same series; and
the sum of two terms with `k = 0` is the coefficient-wise sum of their
series. -/
theorem add_useries_sum (bk : Backend) (terms : List ex) (oc : numeric) (N : Nat)
    (Fs : List fmpq_poly_t) (_hN : 1 ≤ N) (hk : oc.is_mpz = true ∨ oc.is_mpq = true)
    (hFs : List.Forall₂ (fun t F => (ex_useries bk t N).out = .ok F) terms Fs) :
    ∃ R, (ex_useries bk (.add terms oc) N).out = .ok R
      ∧ (∀ i, fmpq_poly_get_coeff R i
          = (Fs.map (fun F => fmpq_poly_get_coeff F i)).sum + if i = 0 then oc.value else 0)
      ∧ (∀ terms', terms'.Perm terms → (ex_useries bk (.add terms' oc) N).out = .ok R)
      ∧ (∀ a b A B, (ex_useries bk a N).out = .ok A → (ex_useries bk b N).out = .ok B →
          ∃ S, (ex_useries bk (.add [a, b] (.mpz 0)) N).out = .ok S
            ∧ ∀ i, fmpq_poly_get_coeff S i = fmpq_poly_get_coeff A i + fmpq_poly_get_coeff B i) := by
  obtain ⟨hall, hval⟩ := seq_useries_of_forall₂ bk N terms Fs hFs
  obtain ⟨R, hR, hnorm, hcoef⟩ := add_useries_out (seq_useries bk terms N) oc N hk hall
  refine ⟨R, by simpa [ex_useries] using hR, fun i => by rw [hcoef i, hval], ?_, ?_⟩
  · intro terms' hperm
    have hall' : ∀ r ∈ seq_useries bk terms' N, ∃ F, r.out = .ok F := by
      intro r hr
      rw [seq_useries_eq_map] at hr hall
      obtain ⟨t, ht, rfl⟩ := List.mem_map.1 hr
      exact hall _ (List.mem_map.2 ⟨t, hperm.mem_iff.1 ht, rfl⟩)
    obtain ⟨R', hR', hnorm', hcoef'⟩ := add_useries_out (seq_useries bk terms' N) oc N hk hall'
    have : R' = R := by
      apply eq_of_coeff_of_normal R' R hnorm' hnorm
      intro i
      rw [hcoef i, hcoef' i, map_value_seq_useries, map_value_seq_useries]
      congr 1
      exact (hperm.map _).sum_eq
    rw [← this]
    simpa [ex_useries] using hR'
  · intro a b A B hA hB
    have hall2 : ∀ r ∈ seq_useries bk [a, b] N, ∃ F, r.out = .ok F := by
      intro r hr
      simp only [seq_useries, List.mem_cons, List.mem_singleton, List.not_mem_nil, or_false] at hr
      rcases hr with rfl | rfl
      · exact ⟨A, hA⟩
      · exact ⟨B, hB⟩
    obtain ⟨S, hS, _, hcoefS⟩ := add_useries_out (seq_useries bk [a, b] N) (.mpz 0) N
      (Or.inl rfl) hall2
    refine ⟨S, by simpa [ex_useries] using hS, fun i => ?_⟩
    rw [hcoefS i]
    simp [seq_useries, Run.value_of_ok _ _ hA, Run.value_of_ok _ _ hB, numeric.value]

/-- Witness of C12: `x + x + 1/2` at order 3 is `1/2 + 2 x`. -/
theorem add_useries_sum_witness :
    (ex_useries flint (.symbol ⟨0⟩) 3).out = .ok [0, 1]
    ∧ ∃ R, (ex_useries flint (.add [.symbol ⟨0⟩, .symbol ⟨0⟩] (.mpq (1 / 2))) 3).out = .ok R
      ∧ fmpq_poly_get_coeff R 0 = 1 / 2 ∧ fmpq_poly_get_coeff R 1 = 2
      ∧ fmpq_poly_get_coeff R 2 = 0 := by
  obtain ⟨R, hR, hcoef, _⟩ := add_useries_sum flint [.symbol ⟨0⟩, .symbol ⟨0⟩] (.mpq (1 / 2)) 3
    [[0, 1], [0, 1]] (by decide) (Or.inr rfl)
    (List.Forall₂.cons rfl (List.Forall₂.cons rfl List.Forall₂.nil))
  refine ⟨rfl, R, hR, ?_, ?_, ?_⟩
  · rw [hcoef 0]
    simp [fmpq_poly_get_coeff, numeric.value]
  · rw [hcoef 1]
    simp [fmpq_poly_get_coeff]
    norm_num
  · rw [hcoef 2]
    simp [fmpq_poly_get_coeff]

/-! ## C13: the pair list of the result -/

theorem filterMap_term_eq (fp : fmpq_poly_t) (l : List Nat) :
    l.filterMap (fun n =>
        if ¬ fmpq_poly_get_coeff fp n = 0 then
          some (expair.term (fmpq_poly_get_coeff fp n) n) else none)
      = (l.filter (fun n => decide (fmpq_poly_get_coeff fp n ≠ 0))).map
          (fun n => expair.term (fmpq_poly_get_coeff fp n) n) := by
  induction l with
  | nil => rfl
  | cons n l ih =>
      by_cases h : fmpq_poly_get_coeff fp n = 0
      · simpa [List.filterMap_cons, List.filter_cons, h] using ih
      · simpa [List.filterMap_cons, List.filter_cons, h] using ih

theorem useries_epv_eq (fp : fmpq_poly_t) (order : Nat) :
    useries_epv fp order
      = ((List.range order).filter (fun n => decide (fmpq_poly_get_coeff fp n ≠ 0))).map
          (fun n => expair.term (fmpq_poly_get_coeff fp n) n) :=
  filterMap_term_eq fp (List.range order)

theorem epv_exponents_append (l1 l2 : List expair) :
    epv_exponents (l1 ++ l2) = epv_exponents l1 ++ epv_exponents l2 := by
  induction l1 with
  | nil => rfl
  | cons p l ih => cases p <;> simp [epv_exponents, ih]

theorem epv_exponents_map_term (g : Nat → ℚ) (l : List Nat) :
    epv_exponents (l.map (fun n => expair.term (g n) n)) = l := by
  induction l with
  | nil => rfl
  | cons n l ih => simp [epv_exponents, ih]

theorem epv_coeff_append_order (l : List expair) (order n : Nat) :
    epv_coeff (l ++ [.order_term order]) n = epv_coeff l n := by
  induction l with
  | nil => simp [epv_coeff]
  | cons p l ih => cases p <;> simp [epv_coeff, ih]

theorem epv_coeff_map_term (g : Nat → ℚ) (l : List Nat) (n : Nat) :
    epv_coeff (l.map (fun m => expair.term (g m) m)) n = if n ∈ l then g n else 0 := by
  induction l with
  | nil => simp [epv_coeff]
  | cons m l ih =>
      by_cases h : m = n
      · subst h
        simp [epv_coeff]
      · have h' : ¬ n = m := fun e => h e.symm
        simp [epv_coeff, h, h', ih]

theorem mem_term_useries_epv (fp : fmpq_poly_t) (order : Nat) (c : ℚ) (n : Nat) :
    expair.term c n ∈ useries_epv fp order ++ [.order_term order]
      ↔ n < order ∧ c = fmpq_poly_get_coeff fp n ∧ c ≠ 0 := by
  simp only [useries_epv_eq, List.mem_append, List.mem_map, List.mem_filter, List.mem_range,
    List.mem_singleton, decide_eq_true_eq, reduceCtorEq, or_false]
  constructor
  · rintro ⟨m, ⟨hm, hne⟩, heq⟩
    injection heq with h1 h2
    subst h2
    exact ⟨hm, h1.symm, h1 ▸ hne⟩
  · rintro ⟨hn, hc, hne⟩
    exact ⟨n, ⟨hn, hc ▸ hne⟩, by rw [hc]⟩

theorem useries_out (bk : Backend) (e : ex) (r : relational) (order options : Nat)
    (fp : fmpq_poly_t) (hfp : (ex_useries bk e order).out = .ok fp) :
    (useries bk e r order options).out
      = .ok ⟨r, useries_epv fp order ++ [.order_term order]⟩ := by
  simp [useries, Run.andThen, hfp, Run.ret]

/-- C13: when the composition of an expression at `order ≥ 1` succeeds with
the series `fp`, `useries` returns the power series bound to the given
relation whose pair list is exactly the pairs `(c_n, n)` for the degrees
`n < order` with `c_n ≠ 0`, in strictly ascending order of `n`, followed by
the one order term carrying `order`; the coefficient list of length `order`
rebuilt from the pairs (absent degrees zero) is the list of the first
`order` coefficients of `fp`. -/
theorem useries_pairs (bk : Backend) (e : ex) (r : relational) (order options : Nat)
    (fp : fmpq_poly_t) (_horder : 1 ≤ order) (hfp : (ex_useries bk e order).out = .ok fp) :
    ∃ P, (useries bk e r order options).out = .ok P
      ∧ P.r = r
      ∧ P.epv = ((List.range order).filter (fun n => decide (fmpq_poly_get_coeff fp n ≠ 0))).map
          (fun n => expair.term (fmpq_poly_get_coeff fp n) n) ++ [.order_term order]
      ∧ (epv_exponents P.epv).Pairwise (· < ·)
      ∧ (∀ c n, expair.term c n ∈ P.epv ↔ n < order ∧ c = fmpq_poly_get_coeff fp n ∧ c ≠ 0)
      ∧ (∀ k, expair.order_term k ∈ P.epv ↔ k = order)
      ∧ epv_rebuild P.epv order = (List.range order).map (fmpq_poly_get_coeff fp) := by
  refine ⟨⟨r, useries_epv fp order ++ [.order_term order]⟩,
    useries_out bk e r order options fp hfp, rfl, ?_, ?_, mem_term_useries_epv fp order, ?_, ?_⟩
  · simp only [useries_epv_eq]
  · simp only [useries_epv_eq, epv_exponents_append, epv_exponents_map_term, epv_exponents,
      List.append_nil]
    exact List.Pairwise.sublist (List.filter_sublist _) (List.pairwise_lt_range order)
  · intro k
    simp only [useries_epv_eq, List.mem_append, List.mem_map, List.mem_singleton,
      reduceCtorEq, and_false, exists_false, false_or, expair.order_term.injEq]
  · simp only [epv_rebuild, useries_epv_eq]
    apply List.map_congr_left
    intro n hn
    rw [epv_coeff_append_order, epv_coeff_map_term]
    by_cases h : fmpq_poly_get_coeff fp n = 0
    · simp [h]
    · simp [h, List.mem_filter, List.mem_range.1 hn]

/-- Witness of C13: the symbol at order 3 gives the pair `(1, 1)` and the
order term, from which `[0, 1, 0]` is rebuilt. -/
theorem useries_pairs_witness :
    (ex_useries flint (.symbol ⟨0⟩) 3).out = .ok [0, 1]
    ∧ ∃ P, (useries flint (.symbol ⟨0⟩) ⟨.symbol ⟨0⟩, .numeric (.mpz 0)⟩ 3 0).out = .ok P
      ∧ P.epv = [.term 1 1, .order_term 3]
      ∧ epv_rebuild P.epv 3 = [0, 1, 0] := by
  obtain ⟨P, hP, _, hepv, _, _, _, hre⟩ := useries_pairs flint (.symbol ⟨0⟩)
    ⟨.symbol ⟨0⟩, .numeric (.mpz 0)⟩ 3 0 [0, 1] (by decide) rfl
  have h3 : List.range 3 = [0, 1, 2] := by decide
  refine ⟨rfl, P, hP, ?_, ?_⟩
  · rw [hepv, h3]
    simp [List.filter_cons, fmpq_poly_get_coeff]
  · rw [hre, h3]
    simp [fmpq_poly_get_coeff]

/-! ## C14: the length of the composed series -/

theorem mul_useries_loop_high (order : Nat) (rs : List (Run fmpq_poly_t)) (fp R : fmpq_poly_t)
    (hfp : ∀ i, order + 2 ≤ i → fmpq_poly_get_coeff fp i = 0)
    (h : (mul_useries_loop order rs fp).out = .ok R) :
    ∀ i, order + 2 ≤ i → fmpq_poly_get_coeff R i = 0 := by
  induction rs generalizing fp with
  | nil =>
      simp only [mul_useries_loop, Run.pure_eq, Run.ret, Except.ok.injEq] at h
      subst h
      exact hfp
  | cons r rs ih =>
      cases hr : r.out with
      | error e => simp [mul_useries_loop, Run.andThen, hr] at h
      | ok F =>
          simp only [mul_useries_loop, Run.bind_eq, Run.andThen, hr] at h
          refine ih (fmpq_poly_mullow fp F (order + 2)) (fun i hi => ?_) h
          rw [get_coeff_mullow, if_neg (by omega)]

theorem mul_useries_high (order : Nat) (rs : List (Run fmpq_poly_t)) (oc : numeric)
    (R : fmpq_poly_t) (h : (mul_useries rs oc order).out = .ok R) :
    ∀ i, order + 2 ≤ i → fmpq_poly_get_coeff R i = 0 := by
  unfold mul_useries at h
  simp only [Run.bind_eq, Run.andThen] at h
  cases hl : (mul_useries_loop order rs (fmpq_poly_set_fmpq 1)).out with
  | error e => simp [hl] at h
  | ok fp =>
      have hhigh := mul_useries_loop_high order rs (fmpq_poly_set_fmpq 1) fp
        (fun i hi => by rw [get_coeff_set_fmpq, if_neg (by omega)]) hl
      simp only [hl] at h
      by_cases h1 : oc.is_one = true
      · simp only [h1, if_true, Run.pure_eq, Run.ret, Except.ok.injEq] at h
        subst h
        exact hhigh
      · cases oc with
        | mpz z =>
            simp only [h1, Bool.false_eq_true, if_false, Run.pure_eq, Run.ret,
              Except.ok.injEq] at h
            subst h
            intro i hi
            rw [get_coeff_scalar_mul, hhigh i hi, mul_zero]
        | mpq q =>
            simp only [h1, Bool.false_eq_true, if_false, numeric.as_mpq, Run.pure_eq, Run.ret,
              Except.ok.injEq] at h
            subst h
            intro i hi
            rw [get_coeff_scalar_mul, hhigh i hi, mul_zero]
        | inexact d =>
            simp [h1, numeric.as_mpq, Run.throw] at h

/-- Counterexample to C14: the symbol at order 1 is `[0, 1]`, `x ^ 5` at
order 2 is `x ^ 5`, and `sin(x) * cos(x)` at order 4 has the coefficient
`1/12` at degree 5: each carries a nonzero coefficient at a degree `≥ N`. -/
theorem useries_longer_than_order :
    ((ex_useries flint (.symbol ⟨0⟩) 1).out = .ok [0, 1] ∧ fmpq_poly_get_coeff [0, 1] 1 ≠ 0)
    ∧ (∃ R, (ex_useries flint (.power (.symbol ⟨0⟩) (.numeric (.mpz 5))) 2).out = .ok R
        ∧ fmpq_poly_get_coeff R 5 ≠ 0)
    ∧ (∃ R, (ex_useries flint (.mul [.function .sin_SERIAL (.symbol ⟨0⟩),
          .function .cos_SERIAL (.symbol ⟨0⟩)] (.mpz 1)) 4).out = .ok R
        ∧ fmpq_poly_get_coeff R 5 ≠ 0) := by
  refine ⟨⟨rfl, by simp [fmpq_poly_get_coeff]⟩, ?_, ?_⟩
  · refine ⟨fmpq_poly_pow [0, 1] 5, ?_, ?_⟩
    · simp [ex_useries, power_useries, symbol_useries, Run.andThen, Run.ret, ex.to_numeric,
        numeric.is_mpq, mpz_to_int]
    · rw [← coeff_to_polynomial, to_polynomial_pow]
      simp [to_polynomial]
  · obtain ⟨hall, hval⟩ := seq_useries_of_forall₂ flint 4
      [.function .sin_SERIAL (.symbol ⟨0⟩), .function .cos_SERIAL (.symbol ⟨0⟩)]
      [[0, 1, 0, -1 / 6], [1, 0, -1 / 2]]
      (List.Forall₂.cons sin_symbol_eval (List.Forall₂.cons cos_symbol_eval List.Forall₂.nil))
    obtain ⟨R, hR, hcoef⟩ := mul_useries_out _ (.mpz 1) 4 (Or.inl rfl) hall
    refine ⟨R, by simpa [ex_useries] using hR, ?_⟩
    rw [hcoef 5 (by decide), hval, get_coeff_scalar_mul, ← coeff_to_polynomial,
      to_polynomial_poly_prod, List.map_cons, List.map_cons, List.map_nil, List.prod_cons,
      List.prod_cons, List.prod_nil, mul_one, ← to_polynomial_mul_coeffs, coeff_to_polynomial]
    simp [mul_coeffs, add_coeffs, fmpq_poly_get_coeff, numeric.value]

/-- C14 (amended): when the composition of an expression at `order ≥ 1`
succeeds, the pair list built by `useries` carries no coefficient pair at a
degree `≥ order`; the composed series itself is not cut to `order`, and the
series of a product carries no nonzero coefficient at a degree
`≥ order + 2`. -/
theorem useries_length (bk : Backend) (e : ex) (r : relational) (order options : Nat)
    (fp : fmpq_poly_t) (_horder : 1 ≤ order) (hfp : (ex_useries bk e order).out = .ok fp) :
    (∃ P, (useries bk e r order options).out = .ok P
        ∧ ∀ c n, expair.term c n ∈ P.epv → n < order)
    ∧ (∀ factors oc R, (ex_useries bk (.mul factors oc) order).out = .ok R →
        ∀ i, order + 2 ≤ i → fmpq_poly_get_coeff R i = 0) := by
  refine ⟨⟨_, useries_out bk e r order options fp hfp, fun c n h => ?_⟩, ?_⟩
  · exact ((mem_term_useries_epv fp order c n).1 h).1
  · intro factors oc R hR
    exact mul_useries_high order _ oc R (by simpa [ex_useries] using hR)

/-- Witness of C14 (amended): the symbol at order 1 gives no pair at a degree `≥ 1`. -/
theorem useries_length_witness :
    (ex_useries flint (.symbol ⟨0⟩) 1).out = .ok [0, 1]
    ∧ ∃ P, (useries flint (.symbol ⟨0⟩) ⟨.symbol ⟨0⟩, .numeric (.mpz 0)⟩ 1 0).out = .ok P
      ∧ ∀ c n, expair.term c n ∈ P.epv → n < 1 :=
  ⟨rfl, (useries_length flint (.symbol ⟨0⟩) ⟨.symbol ⟨0⟩, .numeric (.mpz 0)⟩ 1 0 [0, 1]
    (by decide) rfl).1⟩

/-! ## C15: the classifier and the faults of the composition -/

theorem no_fault_andThen {α β : Type} (r : Run α) (f : α → Run β) (hr : r.no_fault)
    (hf : ∀ a, r.out = .ok a → (f a).no_fault) : (Run.andThen r f).no_fault := by
  unfold Run.no_fault Run.andThen at *
  cases h : r.out with
  | error e =>
      rw [h] at hr
      simpa using hr
  | ok a => simpa using hf a h

theorem no_fault_ret {α : Type} (a : α) : (Run.ret a).no_fault := by
  simp [Run.no_fault, Run.ret]

theorem no_fault_throw_flint_error {α : Type} : (Run.throw .flint_error : Run α).no_fault := by
  simp [Run.no_fault, Run.throw]

theorem no_fault_flint_series (bk : Backend) (f : Prim) (p : fmpq_poly_t) (n : Nat) :
    (flint_series bk f p n).no_fault := by
  unfold Run.no_fault flint_series
  split_ifs <;> simp

theorem no_fault_scalar_div (p : fmpq_poly_t) (c : ℚ) :
    (fmpq_poly_scalar_div_fmpq p c).no_fault := by
  unfold Run.no_fault fmpq_poly_scalar_div_fmpq
  split_ifs <;> simp

theorem no_fault_scalar_mul_fmpq (p : fmpq_poly_t) (cc : Option ℚ) :
    (fmpq_poly_scalar_mul_fmpq p cc).no_fault := by
  cases cc <;> simp [Run.no_fault, fmpq_poly_scalar_mul_fmpq, Run.throw, Run.ret]

theorem no_fault_check_zero (p : fmpq_poly_t) : (check_poly_ccoeff_zero p).no_fault := by
  unfold Run.no_fault check_poly_ccoeff_zero
  split_ifs <;> simp [Run.throw, Run.ret]

theorem no_fault_check_one (p : fmpq_poly_t) : (check_poly_ccoeff_one p).no_fault := by
  unfold Run.no_fault check_poly_ccoeff_one
  split_ifs <;> simp [Run.throw, Run.ret]

theorem no_fault_usfun (bk : Backend) (serial : Serial) (f : usfun_t) (p : fmpq_poly_t)
    (order : Nat) (h : funcmap serial = some f) : (f bk p order).no_fault := by
  cases serial <;> simp [funcmap] at h <;> subst h <;>
    exact no_fault_andThen _ _ (by first | exact no_fault_check_zero p | exact no_fault_check_one p)
      (fun _ _ => no_fault_flint_series _ _ _ _)

theorem function_useries_no_fault (bk : Backend) (serial : Serial) (ra : Run fmpq_poly_t)
    (order : Nat) (hs : (funcmap serial).isSome = true) (ha : ra.no_fault) :
    (function_useries bk serial ra order).no_fault := by
  unfold function_useries
  cases hf : funcmap serial with
  | none => simp [hf] at hs
  | some f => exact no_fault_andThen _ _ ha (fun p _ => no_fault_usfun bk serial f p order hf)

theorem numeric_useries_no_fault (v : numeric) (order : Nat)
    (hv : (v.is_mpz || v.is_mpq) = true) : (numeric_useries v order).no_fault := by
  cases v <;> simp [numeric.is_mpz, numeric.is_mpq] at hv <;>
    simp [numeric_useries, Run.no_fault, Run.ret, Run.andThen, numeric.as_mpq]

theorem add_useries_loop_no_fault (rs : List (Run fmpq_poly_t)) (fp : fmpq_poly_t)
    (h : ∀ r ∈ rs, r.no_fault) : (add_useries_loop rs fp).no_fault := by
  induction rs generalizing fp with
  | nil => exact no_fault_ret fp
  | cons r rs ih =>
      exact no_fault_andThen _ _ (h r (List.mem_cons_self _ _))
        (fun _ _ => ih _ (fun r' hr' => h r' (List.mem_cons_of_mem _ hr')))

theorem mul_useries_loop_no_fault (order : Nat) (rs : List (Run fmpq_poly_t)) (fp : fmpq_poly_t)
    (h : ∀ r ∈ rs, r.no_fault) : (mul_useries_loop order rs fp).no_fault := by
  induction rs generalizing fp with
  | nil => exact no_fault_ret fp
  | cons r rs ih =>
      exact no_fault_andThen _ _ (h r (List.mem_cons_self _ _))
        (fun _ _ => ih _ (fun r' hr' => h r' (List.mem_cons_of_mem _ hr')))

theorem add_useries_no_fault (rs : List (Run fmpq_poly_t)) (oc : numeric) (order : Nat)
    (h : ∀ r ∈ rs, r.no_fault) (hv : (oc.is_mpz || oc.is_mpq) = true) :
    (add_useries rs oc order).no_fault := by
  unfold add_useries
  refine no_fault_andThen _ _ (add_useries_loop_no_fault rs _ h) (fun fp _ => ?_)
  cases oc <;> simp [numeric.is_mpz, numeric.is_mpq] at hv <;>
    (simp only []; split_ifs <;>
      simp [Run.no_fault, Run.ret, Run.andThen, numeric.as_mpq])

theorem mul_useries_no_fault (rs : List (Run fmpq_poly_t)) (oc : numeric) (order : Nat)
    (h : ∀ r ∈ rs, r.no_fault) (hv : (oc.is_mpz || oc.is_mpq) = true) :
    (mul_useries rs oc order).no_fault := by
  unfold mul_useries
  refine no_fault_andThen _ _ (mul_useries_loop_no_fault order rs _ h) (fun fp _ => ?_)
  cases oc <;> simp [numeric.is_mpz, numeric.is_mpq] at hv <;>
    (simp only []; split_ifs <;>
      simp [Run.no_fault, Run.ret, Run.andThen, numeric.as_mpq])

theorem power_useries_no_fault (bk : Backend) (rb re : Run fmpq_poly_t) (exponent : ex)
    (order : Nat) (hb : rb.no_fault) (he : re.no_fault)
    (hv : ∀ v, exponent.to_numeric = some v → (v.is_mpz || v.is_mpq) = true) :
    (power_useries bk rb exponent re order).no_fault := by
  unfold power_useries
  refine no_fault_andThen _ _ hb (fun fp1 _ => ?_)
  cases hx : exponent.to_numeric with
  | none =>
      exact no_fault_andThen _ _ (no_fault_flint_series _ _ _ _)
        (fun _ _ => no_fault_andThen _ _ he (fun _ _ => no_fault_flint_series _ _ _ _))
  | some v =>
      have hv' := hv v hx
      cases v with
      | inexact d => simp [numeric.is_mpz, numeric.is_mpq] at hv'
      | mpz z =>
          simp only [numeric.is_mpq, Bool.false_eq_true, if_false]
          split_ifs
          · exact no_fault_ret _
          · exact no_fault_andThen _ _ (no_fault_check_one _)
              (fun _ _ => no_fault_andThen _ _ (no_fault_flint_series _ _ _ _)
                (fun _ _ => no_fault_ret _))
          · exact no_fault_ret _
      | mpq q =>
          simp only [numeric.is_mpq, if_true]
          split_ifs
          · exact no_fault_throw_flint_error
          · exact no_fault_andThen _ _ (no_fault_scalar_div _ _)
              (fun _ _ => no_fault_andThen _ _ (no_fault_flint_series _ _ _ _)
                (fun _ _ => no_fault_andThen _ _ (no_fault_scalar_mul_fmpq _ _)
                  (fun _ _ => no_fault_ret _)))
          · exact no_fault_andThen _ _ (no_fault_scalar_div _ _)
              (fun _ _ => no_fault_andThen _ _ (no_fault_flint_series _ _ _ _)
                (fun _ _ => no_fault_andThen _ _ (no_fault_scalar_mul_fmpq _ _)
                  (fun _ _ => no_fault_andThen _ _ (no_fault_flint_series _ _ _ _)
                    (fun _ _ => no_fault_ret _))))
          · exact no_fault_andThen _ _ (no_fault_flint_series _ _ _ _)
              (fun _ _ => no_fault_andThen _ _ (by simp [numeric.as_mpq, Run.no_fault, Run.ret])
                (fun _ _ => no_fault_flint_series _ _ _ _))

mutual
theorem ex_useries_no_fault (bk : Backend) (order : Nat) :
    ∀ (e : ex), (∀ n ∈ e.nodes, node_ok n = true) → (ex_useries bk e order).no_fault
  | .constant c, h => by
      have := h (.constant c) (by simp [ex.nodes])
      simp [node_ok] at this
  | .numeric v, h => by
      have := h (.numeric v) (by simp [ex.nodes])
      simpa [ex_useries] using numeric_useries_no_fault v order (by simpa [node_ok] using this)
  | .symbol _, _ => by
      simp [ex_useries, symbol_useries, Run.no_fault, Run.ret]
  | .function serial arg, h => by
      have h1 := h (.function serial arg) (by simp [ex.nodes])
      have ha := ex_useries_no_fault bk order arg
        (fun n hn => h n (by simp [ex.nodes, hn]))
      simpa [ex_useries] using
        function_useries_no_fault bk serial _ order (by simpa [node_ok] using h1) ha
  | .power basis exponent, h => by
      have hb := ex_useries_no_fault bk order basis
        (fun n hn => h n (by simp [ex.nodes, hn]))
      have he := ex_useries_no_fault bk order exponent
        (fun n hn => h n (by simp [ex.nodes, hn]))
      have hv : ∀ v, exponent.to_numeric = some v → (v.is_mpz || v.is_mpq) = true := by
        intro v hx
        cases exponent with
        | numeric w =>
            simp only [ex.to_numeric, Option.some.injEq] at hx
            subst hx
            have := h (.numeric w) (by simp [ex.nodes])
            simpa [node_ok] using this
        | _ => simp [ex.to_numeric] at hx
      simpa [ex_useries] using power_useries_no_fault bk _ _ exponent order hb he hv
  | .add seq oc, h => by
      have hs := seq_useries_no_fault bk order seq
        (fun n hn => h n (by simp [ex.nodes, hn]))
      have hoc := h (.numeric oc) (by simp [ex.nodes])
      simpa [ex_useries] using
        add_useries_no_fault _ oc order hs (by simpa [node_ok] using hoc)
  | .mul seq oc, h => by
      have hs := seq_useries_no_fault bk order seq
        (fun n hn => h n (by simp [ex.nodes, hn]))
      have hoc := h (.numeric oc) (by simp [ex.nodes])
      simpa [ex_useries] using
        mul_useries_no_fault _ oc order hs (by simpa [node_ok] using hoc)
  | .other t, h => by
      have := h (.other t) (by simp [ex.nodes])
      simp [node_ok] at this
theorem seq_useries_no_fault (bk : Backend) (order : Nat) :
    ∀ (seq : List ex), (∀ n ∈ ex.nodes_seq seq, node_ok n = true) →
      ∀ r ∈ seq_useries bk seq order, r.no_fault
  | [], _ => by simp [seq_useries]
  | t :: ts, h => by
      intro r hr
      simp only [seq_useries, List.mem_cons] at hr
      rcases hr with rfl | hr
      · exact ex_useries_no_fault bk order t (fun n hn => h n (by simp [ex.nodes_seq, hn]))
      · exact seq_useries_no_fault bk order ts
          (fun n hn => h n (by simp [ex.nodes_seq, hn])) r hr
end

/-- C15 (what holds, and where the code departs): for an expression that
`useries_can_handle` accepts from the state at program start and an order
`≥ 1`, the composition never ends in the internal-consistency fault
(`std::runtime_error`). Its outcomes are nevertheless not only a series or
`flint_error`: `x ^ x` is accepted, and its composition calls Flint outside
the domain of the logarithm and aborts. -/
theorem accepted_outcomes (bk : Backend) (e : ex) (order : Nat)
    (hacc : (useries_can_handle e .initial).1 = true) (_horder : 1 ≤ order) :
    (ex_useries bk e order).out ≠ .error .runtime_error
    ∧ (∀ s : symbol,
        (useries_can_handle (.power (.symbol s) (.symbol s)) .initial).1 = true
        ∧ (ex_useries bk (.power (.symbol s) (.symbol s)) order).out = .error .flint_abort) := by
  refine ⟨ex_useries_no_fault bk order e ((useries_can_handle_initial e).1 hacc).1, fun s => ?_⟩
  constructor
  · simp [useries_can_handle, unhandled_elements_in, classifier_state.initial]
  · simp [ex_useries, power_useries, symbol_useries, Run.andThen, Run.ret,
      ex.to_numeric, flint_series, Prim.in_domain, fmpq_poly_get_coeff]

/-- Witness of C15: `x ^ x` at order 1. -/
theorem accepted_outcomes_witness :
    (useries_can_handle (.power (.symbol ⟨0⟩) (.symbol ⟨0⟩)) .initial).1 = true
    ∧ (ex_useries flint (.power (.symbol ⟨0⟩) (.symbol ⟨0⟩)) 1).out ≠ .error .runtime_error
    ∧ (ex_useries flint (.power (.symbol ⟨0⟩) (.symbol ⟨0⟩)) 1).out = .error .flint_abort :=
  ⟨by decide,
   (accepted_outcomes flint (.power (.symbol ⟨0⟩) (.symbol ⟨0⟩)) 1 (by decide) (by decide)).1,
   ((accepted_outcomes flint (.power (.symbol ⟨0⟩) (.symbol ⟨0⟩)) 1 (by decide)
      (by decide)).2 ⟨0⟩).2⟩

/-! ## C16: symbols and constants -/

/-- C16: at every order `N ≥ 2` the composition of a symbol succeeds with
the identity series, coefficient one at degree one and zero at every other
degree below `N`; at every order `N ≥ 1` the composition of an exact integer
or rational constant `c` succeeds with `c` at degree zero and zero at every
other degree. -/
theorem symbol_numeric_useries (bk : Backend) (s : symbol) (v : numeric) (N : Nat) :
    (2 ≤ N → ∃ R, (ex_useries bk (.symbol s) N).out = .ok R
        ∧ ∀ i < N, fmpq_poly_get_coeff R i = if i = 1 then 1 else 0)
    ∧ (1 ≤ N → v.is_mpz = true ∨ v.is_mpq = true →
        ∃ R, (ex_useries bk (.numeric v) N).out = .ok R
          ∧ ∀ i, fmpq_poly_get_coeff R i = if i = 0 then v.value else 0) := by
  refine ⟨fun _ => ⟨[0, 1], rfl, fun i _ => ?_⟩, fun _ hv => ?_⟩
  · rcases i with _ | _ | i <;> simp [fmpq_poly_get_coeff]
  · cases v with
    | mpz z =>
        refine ⟨fmpq_poly_set_fmpq z, rfl, fun i => ?_⟩
        rcases i with _ | i <;> simp [fmpq_poly_set_fmpq, numeric.value]
    | mpq q =>
        refine ⟨fmpq_poly_set_fmpq q, rfl, fun i => ?_⟩
        rcases i with _ | i <;> simp [fmpq_poly_set_fmpq, numeric.value]
    | inexact d => simp [numeric.is_mpz, numeric.is_mpq] at hv

/-- Witness of C16: a symbol and the constant `1/2` at order 3. -/
theorem symbol_numeric_useries_witness :
    (∃ R, (ex_useries flint (.symbol ⟨0⟩) 3).out = .ok R
        ∧ ∀ i < 3, fmpq_poly_get_coeff R i = if i = 1 then 1 else 0)
    ∧ (∃ R, (ex_useries flint (.numeric (.mpq (1 / 2))) 3).out = .ok R
        ∧ ∀ i, fmpq_poly_get_coeff R i = if i = 0 then (numeric.mpq (1 / 2)).value else 0) :=
  ⟨(symbol_numeric_useries flint ⟨0⟩ (.mpq (1 / 2)) 3).1 (by decide),
   (symbol_numeric_useries flint ⟨0⟩ (.mpq (1 / 2)) 3).2 (by decide) (Or.inr rfl)⟩

/-! ## C17: failures of operands -/

theorem to_numeric_rename (f : symbol → symbol) (e : ex) :
    (e.rename f).to_numeric = e.to_numeric := by
  cases e <;> simp [ex.rename, ex.to_numeric]

mutual
theorem ex_useries_rename (bk : Backend) (f : symbol → symbol) :
    ∀ (e : ex) (order : Nat), ex_useries bk (e.rename f) order = ex_useries bk e order
  | .constant _, _ => by simp [ex.rename, ex_useries]
  | .numeric _, _ => by simp [ex.rename, ex_useries]
  | .symbol _, _ => by simp [ex.rename, ex_useries]
  | .function serial arg, order => by
      simp [ex.rename, ex_useries, ex_useries_rename bk f arg order]
  | .power basis exponent, order => by
      have h := to_numeric_rename f exponent
      simp [ex.rename, ex_useries, ex_useries_rename bk f basis order,
        ex_useries_rename bk f exponent order, power_useries, h]
  | .add seq oc, order => by
      simp [ex.rename, ex_useries, seq_useries_rename bk f seq order]
  | .mul seq oc, order => by
      simp [ex.rename, ex_useries, seq_useries_rename bk f seq order]
  | .other _, _ => by simp [ex.rename, ex_useries]
theorem seq_useries_rename (bk : Backend) (f : symbol → symbol) :
    ∀ (seq : List ex) (order : Nat),
      seq_useries bk (ex.rename_seq f seq) order = seq_useries bk seq order
  | [], _ => by simp [ex.rename_seq, seq_useries]
  | t :: ts, order => by
      simp [ex.rename_seq, seq_useries, ex_useries_rename bk f t order,
        seq_useries_rename bk f ts order]
end

theorem useries_epv_identity (N : Nat) (hN : 2 ≤ N) :
    useries_epv [0, 1] N = [.term 1 1] := by
  obtain ⟨k, rfl⟩ : ∃ k, N = 2 + k := ⟨N - 2, by omega⟩
  rw [useries_epv, List.range_add, List.filterMap_append]
  have h2 : List.range 2 = [0, 1] := by decide
  have hrest : List.filterMap (fun n =>
      if ¬ fmpq_poly_get_coeff [0, 1] n = 0 then
        some (expair.term (fmpq_poly_get_coeff [0, 1] n) n) else none)
      (List.map (fun x => 2 + x) (List.range k)) = [] := by
    rw [List.filterMap_eq_nil_iff]
    intro a ha
    obtain ⟨b, _, rfl⟩ := List.mem_map.1 ha
    have : fmpq_poly_get_coeff [0, 1] (2 + b) = 0 := by
      rw [show 2 + b = (b + 1) + 1 by omega]
      simp
    simp [this]
  rw [hrest, h2]
  simp [fmpq_poly_get_coeff]

/-- C18: the composition does not look at which symbol an expression holds;
replacing every symbol `s` of the expression by `f s` changes neither the
run of the composition nor the result of `useries`, whatever the relation;
every symbol is expanded as `[0, 1]`, the identity series. In particular
`useries` of the symbol `y` for the relation `x == 0`, `y ≠ x`, at order
`N ≥ 2` is the single pair `(1, 1)` with the order term, bound to the
relation in `x`. -/
theorem useries_symbol_blind (bk : Backend) (f : symbol → symbol) (e : ex) (r : relational)
    (order options : Nat) :
    ex_useries bk (e.rename f) order = ex_useries bk e order
    ∧ useries bk (e.rename f) r order options = useries bk e r order options
    ∧ (∀ s : symbol, ex_useries bk (.symbol s) order = ⟨[], .ok [0, 1]⟩)
    ∧ (∀ x y : symbol, y ≠ x → 2 ≤ order →
        ∃ P, (useries bk (.symbol y) ⟨.symbol x, .numeric (.mpz 0)⟩ order options).out = .ok P
          ∧ P.epv = [.term 1 1, .order_term order]
          ∧ P.r.lhs = .symbol x) := by
  refine ⟨ex_useries_rename bk f e order, ?_, fun s => rfl, fun x y _ hN => ?_⟩
  · simp [useries, ex_useries_rename bk f e order]
  · refine ⟨⟨⟨.symbol x, .numeric (.mpz 0)⟩, [.term 1 1, .order_term order]⟩, ?_, rfl, rfl⟩
    simp [useries, ex_useries, symbol_useries, Run.andThen, Run.ret,
      useries_epv_identity order hN]

/-- Witness of C18: the symbol `y` expanded for the relation `x == 0` at order 2. -/
theorem useries_symbol_blind_witness :
    (⟨1⟩ : symbol) ≠ ⟨0⟩
    ∧ ∃ P, (useries flint (.symbol ⟨1⟩) ⟨.symbol ⟨0⟩, .numeric (.mpz 0)⟩ 2 0).out = .ok P
      ∧ P.epv = [.term 1 1, .order_term 2] ∧ P.r.lhs = .symbol ⟨0⟩ :=
  ⟨by decide, (useries_symbol_blind flint id (.symbol ⟨1⟩) ⟨.symbol ⟨0⟩, .numeric (.mpz 0)⟩
    2 0).2.2.2 ⟨0⟩ ⟨1⟩ (by decide) (by decide)⟩

end GiNaC
